import Mathlib

/-!
Verification development for the hierarchical configuration engine of
daf_butler (src/python/lsst/daf/butler/core/config.py).

The Python code is shallowly embedded as follows.

* A YAML-style document tree is the inductive type Node: mapping nodes
  (insertion-ordered association lists, as Python dicts preserve insertion
  order), sequence nodes, and scalars (string, int, bool, None).
* A hierarchy segment (Seg) is a string or an integer, matching the key
  arguments accepted by Config get/set/del/in.
* Stateful methods on Config become pure functions from the document tree to
  an Except result: a Python exception is an error value (PyErr), a normal
  return carries the new tree and/or result.
* Python str.replace, single-character str.split, the substring test
  (needle in haystack), int(str) and list indexing are embedded as executable
  functions over List Char / List values mirroring Python semantics.
* File reading, the process environment and dynamic class import, which the
  code consumes from external collaborators, are parameters (a file name to
  parsed-document map, an environment path list, a class-name lookup).
-/

namespace DafConfig

/-- A hierarchy segment: Python key arguments are strings or integers. -/
inductive Seg where
  | str (s : String)
  | int (i : Int)
deriving DecidableEq, Repr

/-- A configuration document node: mapping (ordered key-value pairs),
sequence, string, integer, boolean or None scalar. -/
inductive Node where
  | null
  | bool (b : Bool)
  | int (i : Int)
  | str (s : String)
  | seq (xs : List Node)
  | map (xs : List (Seg × Node))

/-- Argument form accepted by Config item access: a single string, or an
iterable of segments (Python tuple/list). -/
inductive KeyExpr where
  | str (s : String)
  | segs (l : List Seg)
deriving DecidableEq, Repr

/-- Python exceptions raised by the configuration code, as structured values.
The required-keys validation failure is a Python KeyError carrying the list of
missing keys in its message; it is kept structured here as missingRequired. -/
inductive PyErr where
  | keyError (msg : String)
  | typeError
  | valueError (msg : String)
  | indexError
  | runtimeError (msg : String)
  | attributeError (msg : String)
  | missingRequired (keys : List String)
  | fuelExhausted
deriving DecidableEq, Repr

/-! ## Python dict as ordered association list -/

/-- Python dict lookup d[k] (first matching key; keys are unique in dicts
produced by the code). -/
def alistGet (xs : List (Seg × Node)) (k : Seg) : Option Node :=
  match xs with
  | [] => none
  | (k', v) :: rest => if k' = k then some v else alistGet rest k

/-- Python dict.get(k, dflt). -/
def alistGetD (xs : List (Seg × Node)) (k : Seg) (dflt : Node) : Node :=
  (alistGet xs k).getD dflt

/-- Python dict assignment d[k] = v: replaces in place if the key exists
(keeping its position), otherwise appends (insertion order). -/
def alistSet (xs : List (Seg × Node)) (k : Seg) (v : Node) : List (Seg × Node) :=
  match xs with
  | [] => [(k, v)]
  | (k', v') :: rest => if k' = k then (k, v) :: rest else (k', v') :: alistSet rest k v

/-- Python del d[k], with the key known present: removes the entry. -/
def alistDel (xs : List (Seg × Node)) (k : Seg) : List (Seg × Node) :=
  match xs with
  | [] => []
  | (k', v') :: rest => if k' = k then rest else (k', v') :: alistDel rest k

/-! ## Python string and list primitives -/

/-- Python substring test: needle in haystack. -/
def pySub (needle : List Char) : List Char → Bool
  | [] => needle.isEmpty
  | c :: rest => needle.isPrefixOf (c :: rest) || pySub needle rest

/-- Python str.replace(old, new) for a single-character pattern old = [x]:
replace occurrences left to right. -/
def pyReplace1 (x : Char) (new : List Char) : List Char → List Char
  | [] => []
  | c :: rest =>
    if c = x then new ++ pyReplace1 x new rest
    else c :: pyReplace1 x new rest

/-- Python str.replace(old, new) for a two-character pattern old = [x, y]:
replace non-overlapping occurrences left to right (after a match both matched
characters are consumed).  The code only ever replaces one- or two-character
patterns (the delimiter, the escape sequence, the sentinel). -/
def pyReplace2 (x y : Char) (new : List Char) : List Char → List Char
  | [] => []
  | [c] => [c]
  | c :: c' :: rest =>
    if c = x ∧ c' = y then new ++ pyReplace2 x y new rest
    else c :: pyReplace2 x y new (c' :: rest)

/-- Python str.split(d) for a single-character separator: includes empty
pieces, and splitting the empty string yields one empty piece. -/
def pySplitCh (d : Char) : List Char → List (List Char)
  | [] => [[]]
  | c :: rest =>
    if c = d then [] :: pySplitCh d rest
    else
      match pySplitCh d rest with
      | h :: t => (c :: h) :: t
      | [] => [[c]]

/-- Python list/str indexing d[i]: negative indices count from the end;
out-of-range yields none (IndexError). -/
def pyIndex {α : Type} (xs : List α) (i : Int) : Option α :=
  if 0 ≤ i then xs[i.toNat]?
  else if 0 ≤ i + xs.length then xs[(i + xs.length).toNat]?
  else none

/-- Python list item assignment d[i] = v (IndexError when out of range;
a negative index i addresses position i + len, in range when 0 ≤ i + len). -/
def pySetIdx (xs : List Node) (i : Int) (v : Node) : Except PyErr (List Node) :=
  if 0 ≤ i then
    if i < xs.length then .ok (xs.set i.toNat v) else .error .indexError
  else
    if 0 ≤ i + xs.length then .ok (xs.set (i + xs.length).toNat v)
    else .error .indexError

/-- Python del d[i] on a list (IndexError when out of range). -/
def pyDelIdx (xs : List Node) (i : Int) : Except PyErr (List Node) :=
  if 0 ≤ i then
    if i < xs.length then .ok (xs.eraseIdx i.toNat) else .error .indexError
  else
    if 0 ≤ i + xs.length then .ok (xs.eraseIdx (i + xs.length).toNat)
    else .error .indexError

/-- Whitespace characters stripped by Python int(str). -/
def pyIsSpace (c : Char) : Bool :=
  c = ' ' || c = '\t' || c = '\n' || c = '\r'

def digitsVal (ds : List Char) : Int :=
  ds.foldl (fun a c => a * 10 + ((c.toNat : Int) - ('0'.toNat : Int))) 0

/-- Python int(str): optional surrounding whitespace, optional sign, decimal
digits (digit-group underscores are not modelled; the code only converts
key segments, which never contain them). Returns none on ValueError. -/
def pyToInt (s : String) : Option Int :=
  let t := ((s.data.dropWhile pyIsSpace).reverse.dropWhile pyIsSpace).reverse
  match t with
  | [] => none
  | '-' :: ds => if ds ≠ [] && ds.all Char.isDigit then some (-(digitsVal ds)) else none
  | '+' :: ds => if ds ≠ [] && ds.all Char.isDigit then some (digitsVal ds) else none
  | ds => if ds.all Char.isDigit then some (digitsVal ds) else none

/-- Python membership k in d for a list d and a string k: true when some
element equals the string (a Python str compares equal only to an equal str). -/
def seqHasStr (xs : List Node) (s : String) : Bool :=
  xs.any (fun n => match n with | .str t => t = s | _ => false)

/-! ## KeyPathParser: Config._splitIntoKeys and Config._getKeyHierarchy -/

/-- Config._splitIntoKeys on a string key. An empty string raises IndexError
(key[0]); a key with an alphanumeric first character is a single segment;
otherwise the first character is the delimiter, backslash-delimiter is the
literal-delimiter escape handled through the CR sentinel, a doubled escape and
a CR collision are ValueErrors. -/
def splitIntoKeys (key : String) : Except PyErr (List Seg) :=
  match key.data with
  | [] => .error .indexError
  | c :: rest =>
    if c.isAlphanum then .ok [Seg.str key]
    else
      let d := c
      let escaped : List Char := ['\\', d]
      if pySub escaped rest then
        if pySub ('\\' :: escaped) rest then
          .error (.valueError "Escaping an escaped delimiter is not yet supported.")
        else if pySub ['\r'] rest || d = '\r' then
          .error (.valueError "Can not use the sentinel in a hierarchical key or as delimiter")
        else
          let replaced := pyReplace2 '\\' d ['\r'] rest
          .ok ((pySplitCh d replaced).map (fun h => Seg.str ⟨pyReplace1 '\r' [d] h⟩))
      else
        .ok ((pySplitCh d rest).map (fun h => Seg.str ⟨h⟩))

/-- Config._getKeyHierarchy: an exact top-level key match short-circuits the
delimiter split; a tuple of segments is used as-is (a tuple is never equal to
a mapping key, so the exact-match test is false for tuples). -/
def getKeyHierarchy (root : Node) (name : KeyExpr) : Except PyErr (List Seg) :=
  match name with
  | .segs l => .ok l
  | .str s =>
    let isTop : Bool :=
      match root with
      | .map xs => (alistGet xs (.str s)).isSome
      | _ => false
    if isTop then .ok [Seg.str s] else splitIntoKeys s

/-! ## HierarchicalStore descent: Config._findInHierarchy -/

/-- One step of Config._findInHierarchy.checkNextItem without creation.
Returns ok none when the segment is not there, ok (some v) when it resolves
to v.  A Python str is a Sequence: integer segments index into it one
character at a time; a non-numeric string segment falls back to the
membership test (substring for str, element equality for list), which
reports present with value None.  A plain int/bool scalar raises TypeError
(Python `k in d` on a non-container). -/
def checkNextItem (k : Seg) (d : Node) : Except PyErr (Option Node) :=
  match d with
  | .null => .ok none
  | .str s =>
    match k with
    | .int i =>
      match pyIndex s.data i with
      | some ch => .ok (some (.str ⟨[ch]⟩))
      | none => .ok none
    | .str ks =>
      match pyToInt ks with
      | some i =>
        match pyIndex s.data i with
        | some ch => .ok (some (.str ⟨[ch]⟩))
        | none => .ok none
      | none => if pySub ks.data s.data then .ok (some .null) else .ok none
  | .seq xs =>
    match k with
    | .int i =>
      match pyIndex xs i with
      | some v => .ok (some v)
      | none => .ok none
    | .str ks =>
      match pyToInt ks with
      | some i =>
        match pyIndex xs i with
        | some v => .ok (some v)
        | none => .ok none
      | none => if seqHasStr xs ks then .ok (some .null) else .ok none
  | .map xs =>
    match alistGet xs k with
    | some v => .ok (some v)
    | none => .ok none
  | .int _ => .error .typeError
  | .bool _ => .error .typeError

/-- Config._findInHierarchy without creation: the list of values reached at
each resolved segment, and whether the whole hierarchy resolved. -/
def findInHierarchy (d : Node) : List Seg → Except PyErr (List Node × Bool)
  | [] => .ok ([], true)
  | k :: rest =>
    match checkNextItem k d with
    | .error e => .error e
    | .ok none => .ok ([], false)
    | .ok (some v) =>
      match findInHierarchy v rest with
      | .error e => .error e
      | .ok (h, c) => .ok (v :: h, c)

/-- Config.__getitem__. A mapping result is wrapped by Python into a fresh
Config (a deep copy); the document value is identical, so the node itself is
returned here. -/
def getItem (root : Node) (name : KeyExpr) : Except PyErr Node :=
  match getKeyHierarchy root name with
  | .error e => .error e
  | .ok keys =>
    match findInHierarchy root keys with
    | .error e => .error e
    | .ok (h, complete) =>
      if complete then
        match h.getLast? with
        | some v => .ok v
        | none => .error .indexError
      else .error (.keyError "not found")

/-- Config.__contains__. -/
def containsKey (root : Node) (name : KeyExpr) : Except PyErr Bool :=
  match getKeyHierarchy root name with
  | .error e => .error e
  | .ok keys =>
    match findInHierarchy root keys with
    | .error e => .error e
    | .ok (_, complete) => .ok complete

/-! ## Mutation: Config.__setitem__ and Config.__delitem__ -/

/-- The final assignment of Config.__setitem__: try data[last] = value and on
TypeError retry with data[int(last)] = value.  A dict accepts any segment; a
list raises TypeError for a string index, caught and converted with int()
(ValueError when non-numeric, IndexError when out of range); strings and
scalars fail on both attempts. -/
def assignInto (d : Node) (last : Seg) (v : Node) : Except PyErr Node :=
  match d with
  | .map xs => .ok (.map (alistSet xs last v))
  | .seq xs =>
    match last with
    | .int i =>
      match pySetIdx xs i v with
      | .ok xs' => .ok (.seq xs')
      | .error e => .error e
    | .str s =>
      match pyToInt s with
      | some i =>
        match pySetIdx xs i v with
        | .ok xs' => .ok (.seq xs')
        | .error e => .error e
      | none => .error (.valueError "invalid literal for int")
  | _ =>
    -- str/None/int/bool: data[last] = value raises TypeError (caught), then
    -- int(last) either raises ValueError or the indexed assignment raises
    -- TypeError again (uncaught).
    match last with
    | .int _ => .error .typeError
    | .str s =>
      match pyToInt s with
      | some _ => .error .typeError
      | none => .error (.valueError "invalid literal for int")

/-- Config.__setitem__ after the key hierarchy was split into the leading
keys and the popped last segment.  Mirrors _findInHierarchy with create=True
followed by the assignment: descending steps that succeed recurse into the
child (writing the updated child back); a dict step for a missing key creates
an empty dict and continues; a step that fails leaves the loop early and the
assignment happens on the last value reached; the list membership fallback
continues the descent on None (which can only end in an exception, so no
write-back is needed). -/
def setPathAux (d : Node) (ks : List Seg) (last : Seg) (v : Node) : Except PyErr Node :=
  match ks with
  | [] => assignInto d last v
  | k :: rest =>
    match d with
    | .null => assignInto .null last v
    | .int _ => .error .typeError
    | .bool _ => .error .typeError
    | .map xs =>
      match alistGet xs k with
      | some child =>
        match setPathAux child rest last v with
        | .ok child' => .ok (.map (alistSet xs k child'))
        | .error e => .error e
      | none =>
        -- create=True inserts an empty dict and continues the descent in it
        match setPathAux (.map []) rest last v with
        | .ok child' => .ok (.map (alistSet xs k child'))
        | .error e => .error e
    | .seq xs =>
      match k with
      | .int i =>
        match pyIndex xs i with
        | some child =>
          match setPathAux child rest last v with
          | .ok child' =>
            match pySetIdx xs i child' with
            | .ok xs' => .ok (.seq xs')
            | .error e => .error e
          | .error e => .error e
        | none => assignInto (.seq xs) last v
      | .str s =>
        match pyToInt s with
        | some i =>
          match pyIndex xs i with
          | some child =>
            match setPathAux child rest last v with
            | .ok child' =>
              match pySetIdx xs i child' with
              | .ok xs' => .ok (.seq xs')
              | .error e => .error e
            | .error e => .error e
          | none => assignInto (.seq xs) last v
        | none =>
          if seqHasStr xs s then
            -- membership fallback: descent continues on the detached None
            setPathAux .null rest last v
          else assignInto (.seq xs) last v
    | .str t =>
      match k with
      | .int i =>
        match pyIndex t.data i with
        | some ch =>
          -- the sliced character is a fresh string, not aliased into the
          -- tree; any continuation ends in an exception, so the result of
          -- the recursion (always an error) is returned unchanged
          setPathAux (.str ⟨[ch]⟩) rest last v
        | none => assignInto (.str t) last v
      | .str s =>
        match pyToInt s with
        | some i =>
          match pyIndex t.data i with
          | some ch => setPathAux (.str ⟨[ch]⟩) rest last v
          | none => assignInto (.str t) last v
        | none =>
          if pySub s.data t.data then setPathAux .null rest last v
          else assignInto (.str t) last v

/-- Config.__setitem__.  A Config value is deep-copied to its data first;
values here are already plain nodes. -/
def setItem (root : Node) (name : KeyExpr) (v : Node) : Except PyErr Node :=
  match getKeyHierarchy root name with
  | .error e => .error e
  | .ok keys =>
    match keys.getLast? with
    | none => .error .indexError
    | some last => setPathAux root keys.dropLast last v

/-- The final deletion of Config.__delitem__: del data[last].  No int()
conversion is attempted here: a string index into a list raises TypeError. -/
def delFrom (d : Node) (last : Seg) : Except PyErr Node :=
  match d with
  | .map xs =>
    match alistGet xs last with
    | some _ => .ok (.map (alistDel xs last))
    | none => .error (.keyError "del on missing dict key")
  | .seq xs =>
    match last with
    | .int i =>
      match pyDelIdx xs i with
      | .ok xs' => .ok (.seq xs')
      | .error e => .error e
    | .str _ => .error .typeError
  | _ => .error .typeError

/-- Config.__delitem__ descent: the leading keys must fully resolve
(create=False, so a failing step raises KeyError); then del on the last value
reached.  Steps that resolve recurse into the child and write the updated
child back; the list membership fallback and string-character slices continue
on detached values whose continuation always errors, so nothing is written
back there. -/
def delPathAux (d : Node) (ks : List Seg) (last : Seg) : Except PyErr Node :=
  match ks with
  | [] => delFrom d last
  | k :: rest =>
    match d with
    | .null => .error (.keyError "not found in Config")
    | .int _ => .error .typeError
    | .bool _ => .error .typeError
    | .map xs =>
      match alistGet xs k with
      | some child =>
        match delPathAux child rest last with
        | .ok child' => .ok (.map (alistSet xs k child'))
        | .error e => .error e
      | none => .error (.keyError "not found in Config")
    | .seq xs =>
      match k with
      | .int i =>
        match pyIndex xs i with
        | some child =>
          match delPathAux child rest last with
          | .ok child' =>
            match pySetIdx xs i child' with
            | .ok xs' => .ok (.seq xs')
            | .error e => .error e
          | .error e => .error e
        | none => .error (.keyError "not found in Config")
      | .str s =>
        match pyToInt s with
        | some i =>
          match pyIndex xs i with
          | some child =>
            match delPathAux child rest last with
            | .ok child' =>
              match pySetIdx xs i child' with
              | .ok xs' => .ok (.seq xs')
              | .error e => .error e
            | .error e => .error e
          | none => .error (.keyError "not found in Config")
        | none =>
          if seqHasStr xs s then delPathAux .null rest last
          else .error (.keyError "not found in Config")
    | .str t =>
      match k with
      | .int i =>
        match pyIndex t.data i with
        | some ch => delPathAux (.str ⟨[ch]⟩) rest last
        | none => .error (.keyError "not found in Config")
      | .str s =>
        match pyToInt s with
        | some i =>
          match pyIndex t.data i with
          | some ch => delPathAux (.str ⟨[ch]⟩) rest last
          | none => .error (.keyError "not found in Config")
        | none =>
          if pySub s.data t.data then delPathAux .null rest last
          else .error (.keyError "not found in Config")

/-- Config.__delitem__. -/
def delItem (root : Node) (name : KeyExpr) : Except PyErr Node :=
  match getKeyHierarchy root name with
  | .error e => .error e
  | .ok keys =>
    match keys.getLast? with
    | none => .error .indexError
    | some last => delPathAux root keys.dropLast last

/-! ## Deep merge: Config.update and Config.merge -/

/-- isinstance(v, collections.abc.Mapping). -/
def isMapNode : Node → Bool
  | .map _ => true
  | _ => false

mutual

/-- Config.update's inner doUpdate(d, u): both sides must be mappings
(RuntimeError otherwise); for each key of u in order, a mapping value is
recursively merged into d.get(k, NewEmptyDict) and written back, any other
value replaces d[k]. -/
def doUpdate (d u : Node) : Except PyErr Node :=
  match u with
  | .map ux =>
    match d with
    | .map dx =>
      match updateEntries dx ux with
      | .ok r => .ok (.map r)
      | .error e => .error e
    | _ => .error (.runtimeError "Only call update with Mapping")
  | _ => .error (.runtimeError "Only call update with Mapping")

/-- The for-loop of doUpdate over the items of u, threading the target dict. -/
def updateEntries (dx : List (Seg × Node)) (ux : List (Seg × Node)) :
    Except PyErr (List (Seg × Node)) :=
  match ux with
  | [] => .ok dx
  | (k, v) :: rest =>
    match v with
    | .map _ =>
      match doUpdate (alistGetD dx k (.map [])) v with
      | .ok merged => updateEntries (alistSet dx k merged) rest
      | .error e => .error e
    | _ => updateEntries (alistSet dx k v) rest

end

/-- The argument of Config.merge: either another Config or a plain dict. -/
inductive MergeOther where
  | config (d : Node)
  | dict (d : Node)

/-- Config.merge(other): otherCopy = deepcopy(other); otherCopy.update(self);
self._data = otherCopy._data.  When other is a Config, otherCopy.update is the
recursive Config.update and the result becomes the new data.  When other is a
plain dict, otherCopy is a dict: dict.update(self) performs a shallow
top-level update, but the subsequent otherCopy._data attribute access raises
AttributeError, so merge with a plain dict always fails (and self is left
unchanged). -/
def mergeConfig (selfD : Node) (other : MergeOther) : Except PyErr Node :=
  match other with
  | .config oc => doUpdate oc selfD
  | .dict _ => .error (.attributeError "dict object has no attribute _data")

/-! ## Enumeration: Config.nameTuples and Config.names -/

/-- isinstance(val, (Mapping, Sequence)) and not isinstance(val, str):
whether the depth-first enumeration recurses into a value. -/
def isTraversable : Node → Bool
  | .map _ => true
  | .seq _ => true
  | _ => false

mutual

/-- Config.nameTuples' getKeysAsTuples: depth-first preorder enumeration of
every reachable path; sequences contribute integer segments via range(len),
mappings contribute their keys; strings are never traversed. -/
def getKeysAsTuples (d : Node) (base : List Seg) : List (List Seg) :=
  match d with
  | .seq xs => seqTuples xs 0 base
  | .map xs => mapTuples xs base
  | _ => []

def seqTuples (xs : List Node) (i : Nat) (base : List Seg) : List (List Seg) :=
  match xs with
  | [] => []
  | v :: rest =>
    ((base ++ [Seg.int i]) ::
      (if isTraversable v then getKeysAsTuples v (base ++ [Seg.int i]) else []))
      ++ seqTuples rest (i + 1) base

def mapTuples (xs : List (Seg × Node)) (base : List Seg) : List (List Seg) :=
  match xs with
  | [] => []
  | (k, v) :: rest =>
    ((base ++ [k]) ::
      (if isTraversable v then getKeysAsTuples v (base ++ [k]) else []))
      ++ mapTuples rest base

end

/-- Config.nameTuples with topLevelOnly=False. -/
def nameTuples (root : Node) : List (List Seg) :=
  getKeysAsTuples root []

/-- str(s) for a segment, as rendered into delimited names. -/
def segStr : Seg → String
  | .str s => s
  | .int i => toString i

/-- The default internal delimiter Config._D. -/
def defaultDelim : Char := '→'

/-- The advance step of delimiter inference: chr(ord(c)+1) repeatedly until
the character is not alphanumeric (a do-while; runs of alphanumeric
codepoints are tiny, so 128 steps of fuel are never exhausted). -/
def nextCandidate (c : Char) : Char :=
  go 128 c
where
  go : Nat → Char → Char
    | 0, c => c
    | n + 1, c =>
      let c' := Char.ofNat (c.toNat + 1)
      if c'.isAlphanum then go n c' else c'

/-- The delimiter search loop of Config.names: while the candidate occurs in
the combined segment string, advance; more than 100 retries is a ValueError.
The fuel argument counts the remaining allowed retries (initially 100). -/
def findDelimAux (combined : List Char) (dl : Char) (fuel : Nat) : Except PyErr Char :=
  if pySub [dl] combined then
    match fuel with
    | 0 => .error (.valueError "Unable to determine a delimiter for Config")
    | n + 1 => findDelimAux combined (nextCandidate dl) n
  else .ok dl

/-- The list of segment characters whose concatenation Config.names checks
candidate delimiters against. -/
def combinedOf (root : Node) : List Char :=
  (nameTuples root).flatMap (fun k => k.flatMap (fun s => (segStr s).data))

/-- Python delimiter.join over character lists. -/
def joinSeps (dl : Char) : List (List Char) → List Char
  | [] => []
  | [x] => x
  | x :: xs => x ++ dl :: joinSeps dl xs

/-- One rendered name: delimiter + delimiter.join(segments with the delimiter
backslash-escaped). -/
def renderName (dl : Char) (k : List Seg) : String :=
  ⟨dl :: joinSeps dl (k.map (fun s => pyReplace1 dl ['\\', dl] (segStr s).data))⟩

/-- Config.names with topLevelOnly=False.  A supplied alphanumeric delimiter
is a ValueError; with no delimiter the search starts from Config._D. -/
def namesConfig (root : Node) (delimiter : Option Char) : Except PyErr (List String) :=
  let nts := nameTuples root
  match delimiter with
  | some dl =>
    if dl.isAlphanum then .error (.valueError "Supplied delimiter must not be alphanumeric.")
    else .ok (nts.map (renderName dl))
  | none =>
    match findDelimAux (combinedOf root) defaultDelim 100 with
    | .error e => .error e
    | .ok dl => .ok (nts.map (renderName dl))

/-! ## IncludeResolver: Config._processExplicitIncludes

File access is abstracted by a resolver rc mapping an include file name to
the referenced document parsed as a Config (recursively include-resolved, as
type(self)(found) does); none means the name was not found in any search
location (current directory, then the source file's directory). -/

/-- The reserved include key Config.includeKey. -/
def includeKey : Seg := .str "includeConfigs"

/-- Reading of the referenced include files, in order: each name is resolved
(rc abstracts the search over the current directory and the source file's
directory plus the parse of the found file, i.e. type(self)(found)); a
missing file is a RuntimeError, a non-string entry a TypeError from the path
functions. -/
def resolveIncludes (rc : String → Option Node) : List Node → Except PyErr (List Node)
  | [] => .ok []
  | n :: rest =>
    match n with
    | .str fn =>
      match rc fn with
      | some c =>
        match resolveIncludes rc rest with
        | .ok cs => .ok (c :: cs)
        | .error e => .error e
      | none => .error (.runtimeError ("Unable to find referenced include file: " ++ fn))
    | _ => .error .typeError

/-- The body of the loop of _processExplicitIncludes for one precomputed
path: a path whose final segment is the include key has its value extracted
and deleted, each referenced file read, the sub-documents merged left to
right with update, the node's own remaining content overlaid on top, and the
result written back at the node's path (or made the whole document at the
root). -/
def processOneInclude (st : Node) (path : List Seg) (rc : String → Option Node) :
    Except PyErr Node :=
  if path.getLast? = some includeKey then
    match getItem st (.segs path) with
    | .error e => .error e
    | .ok includesVal =>
      match delItem st (.segs path) with
      | .error e => .error e
      | .ok st1 =>
        let includeList : List Node :=
          match includesVal with
          | .seq xs => xs
          | other => [other]
        match resolveIncludes rc includeList with
        | .error e => .error e
        | .ok subConfigs =>
          match subConfigs with
          | [] => .error .indexError  -- subConfigs.pop(0) on an empty list
          | first :: rest =>
            match rest.foldlM doUpdate first with
            | .error e => .error e
            | .ok newConfig =>
              let basePath := path.dropLast
              if basePath.isEmpty then doUpdate newConfig st1
              else
                match getItem st1 (.segs basePath) with
                | .error e => .error e
                | .ok baseVal =>
                  match doUpdate newConfig baseVal with
                  | .error e => .error e
                  | .ok merged => setItem st1 (.segs basePath) merged
  else .ok st

/-- Config._processExplicitIncludes: the set of name tuples is computed once
up front, then each path ending in the include key is processed against the
evolving document. -/
def processExplicitIncludes (root : Node) (rc : String → Option Node) :
    Except PyErr Node :=
  (nameTuples root).foldlM (fun st p => processOneInclude st p rc) root

/-! ## DefaultsComposer: ConfigSubset

External collaborators are parameters: fs maps a joined path name to the
parsed (and include-resolved) content of an existing file, none when the file
does not exist; envPaths is the ordered list read from the
DAF_BUTLER_CONFIG_PATH environment variable; builtinDir is the fixed butler
config directory; clsLookup models lsst.utils.doImport, giving the imported
class's defaultConfigFile and containerKey (none when the import fails).
Recursion through child-subset expansion is not structurally bounded, so a
fuel parameter bounds it; fuelExhausted never occurs at the depths the
theorems use. -/

/-- The declarative schema of a ConfigSubset subclass. -/
structure SubsetDesc where
  component : Option String
  requiredKeys : List String
  defaultConfigFile : Option String

/-- What doImport provides about the class named by the cls discriminator. -/
structure ClsInfo where
  defaultConfigFile : Option String
  containerKey : Option String

/-- os.path.join for the search-path probe. -/
def joinPath (dir file : String) : String := dir ++ "/" ++ file

/-- os.path.isabs. -/
def isAbsPath (p : String) : Bool :=
  match p.data with
  | '/' :: _ => true
  | _ => false

/-- The component-selection step of ConfigSubset.__init__: the doubled
(component, component) hierarchy is checked first, then the component alone,
whose value is taken by raw dict access; with neither present the whole
input is the subset. -/
def selectComponent (comp : Option String) (ext : Node) : Except PyErr Node :=
  match comp with
  | none => .ok ext
  | some c =>
    match containsKey ext (.segs [.str c, .str c]) with
    | .error e => .error e
    | .ok true => getItem ext (.segs [.str c, .str c])
    | .ok false =>
      match containsKey ext (.str c) with
      | .error e => .error e
      | .ok true =>
        match ext with
        | .map xs =>
          match alistGet xs (.str c) with
          | some v => .ok v
          | none => .error (.keyError c)
        | _ => .error .typeError
      | .ok false => .ok ext

/-- ConfigSubset._updateWithConfigsFromPath: an absolute file is read
directly; otherwise every search directory holding the file is applied in
reverse order, so earlier (higher-priority) entries update the object last.
Each file is read as a ConfigSubset with mergeDefaults=False, i.e. parsed
and component-selected, then merged with update. -/
def updateWithConfigsFromPath (comp : Option String) (fs : String → Option Node)
    (selfD : Node) (searchPaths : List String) (configFile : String) :
    Except PyErr Node :=
  if isAbsPath configFile then
    match fs configFile with
    | some raw =>
      match selectComponent comp raw with
      | .error e => .error e
      | .ok ext => doUpdate selfD ext
    | none => .ok selfD
  else
    searchPaths.reverse.foldlM
      (fun st dir =>
        match fs (joinPath dir configFile) with
        | some raw =>
          match selectComponent comp raw with
          | .error e => .error e
          | .ok ext => doUpdate st ext
        | none => .ok st)
      selfD

/-- Python `k not in self._data` for validate: a raw top-level dict key
test. -/
def topLevelHas (d : Node) (k : String) : Bool :=
  match d with
  | .map xs => (alistGet xs (.str k)).isSome
  | _ => false

/-- ConfigSubset.validate: collect every required key missing from the data
(one membership test per key, no early stop); any missing keys raise a
KeyError carrying the complete list. -/
def validateRequired (requiredKeys : List String) (d : Node) : Except PyErr Unit :=
  let missing := requiredKeys.filter (fun k => !topLevelHas d k)
  if missing.isEmpty then .ok () else .error (.missingRequired missing)

/-- The defaults-merging step of ConfigSubset.__init__ under mergeDefaults:
merge the subset's own default file over the full search path, read the cls
discriminator from the external config first and the merged defaults second,
merge the named class's default file the same way, and capture its container
key.  Returns the merged defaults and the container key. -/
def mergeDefaultsStep (desc : SubsetDesc) (clsLookup : String → Option ClsInfo)
    (fs : String → Option Node) (fullSearchPath : List String) (ext : Node) :
    Except PyErr (Node × Option String) :=
  match
    (match desc.defaultConfigFile with
     | some f => updateWithConfigsFromPath desc.component fs (.map []) fullSearchPath f
     | none => .ok (.map []))
  with
  | .error e => .error e
  | .ok selfD =>
    let pytypeE : Except PyErr (Option Node) :=
      match containsKey ext (.str "cls") with
      | .error e => .error e
      | .ok true =>
        match getItem ext (.str "cls") with
        | .error e => .error e
        | .ok v => .ok (some v)
      | .ok false =>
        match containsKey selfD (.str "cls") with
        | .error e => .error e
        | .ok true =>
          match getItem selfD (.str "cls") with
          | .error e => .error e
          | .ok v => .ok (some v)
        | .ok false => .ok none
    match pytypeE with
    | .error e => .error e
    | .ok none => .ok (selfD, none)
    | .ok (some (.str ptype)) =>
      match clsLookup ptype with
      | none => .error (.runtimeError ("Failed to import cls " ++ ptype))
      | some info =>
        match
          (match info.defaultConfigFile with
           | some df => updateWithConfigsFromPath desc.component fs selfD fullSearchPath df
           | none => .ok selfD)
        with
        | .error e => .error e
        | .ok selfD' => .ok (selfD', info.containerKey)
    | .ok (some _) => .error .typeError  -- doImport of a non-string cls

/-- The child-subset expansion loop: each element of self[containerKey] is
replaced in place by the recursively composed subset (the recursive
constructor call is passed in as recurse). -/
def expandChildrenWith (recurse : Node → Except PyErr Node) (ck : String) :
    List Node → Nat → Node → Except PyErr Node
  | [], _, st => .ok st
  | sub :: rest, i, st =>
    match recurse sub with
    | .error e => .error e
    | .ok composed =>
      match setItem st (.segs [.str ck, .int i]) composed with
      | .error e => .error e
      | .ok st' => expandChildrenWith recurse ck rest (i + 1) st'

/-- ConfigSubset.__init__: parse the external input, select the component,
optionally merge defaults (the subset default file over the full search path,
then the cls discriminator's default file), overlay the external values,
expand container children recursively, and validate.  Recursion through child
expansion is bounded by fuel (one unit per nesting level; the Python code has
no such bound and would recurse until resource exhaustion on cyclic
configurations). -/
def configSubsetInit (desc : SubsetDesc) (clsLookup : String → Option ClsInfo)
    (fs : String → Option Node) (envPaths : List String) (builtinDir : String) :
    Nat → Node → Bool → Bool → List String → Except PyErr Node
  | 0, _, _, _, _ => .error .fuelExhausted
  | fuel + 1, other, validate, mergeDefaults, searchPaths =>
    match doUpdate (.map []) other with  -- Config(other): copy into a fresh Config
    | .error e => .error e
    | .ok ext0 =>
      match selectComponent desc.component ext0 with
      | .error e => .error e
      | .ok ext =>
        match
          (if mergeDefaults then
            mergeDefaultsStep desc clsLookup fs (searchPaths ++ envPaths ++ [builtinDir]) ext
          else .ok (.map [], none))
        with
        | .error e => .error e
        | .ok (selfD, containerKey) =>
          match doUpdate selfD ext with  -- external values override the defaults
          | .error e => .error e
          | .ok selfD1 =>
            match
              (match containerKey with
               | some ck =>
                 if mergeDefaults then
                   match containsKey selfD1 (.str ck) with
                   | .error e => (.error e : Except PyErr Node)
                   | .ok true =>
                     match getItem selfD1 (.str ck) with
                     | .error e => (.error e : Except PyErr Node)
                     | .ok (.seq xs) =>
                       expandChildrenWith
                         (fun sub =>
                           configSubsetInit desc clsLookup fs envPaths builtinDir
                             fuel sub validate mergeDefaults searchPaths)
                         ck xs 0 selfD1
                     | .ok _ =>
                       -- enumerate over a non-sequence container value
                       -- iterates dict keys whose recursive construction
                       -- fails
                       .error .typeError
                   | .ok false => .ok selfD1
                 else .ok selfD1
               | none => .ok selfD1)
            with
            | .error e => .error e
            | .ok selfD2 =>
              if validate then
                match validateRequired desc.requiredKeys selfD2 with
                | .error e => .error e
                | .ok () => .ok selfD2
              else .ok selfD2

/-! # Association-list lemmas -/

theorem alistGet_set_self (xs : List (Seg × Node)) (k : Seg) (v : Node) :
    alistGet (alistSet xs k v) k = some v := by
  induction xs with
  | nil => simp [alistSet, alistGet]
  | cons p rest ih =>
    obtain ⟨k', v'⟩ := p
    by_cases h : k' = k <;> simp [alistSet, alistGet, h, ih]

theorem alistGet_set_ne (xs : List (Seg × Node)) (k k' : Seg) (v : Node)
    (hne : k' ≠ k) : alistGet (alistSet xs k v) k' = alistGet xs k' := by
  have hne' : ¬(k = k') := fun h => hne h.symm
  induction xs with
  | nil => simp [alistSet, alistGet, hne']
  | cons p rest ih =>
    obtain ⟨k₁, v₁⟩ := p
    by_cases h : k₁ = k
    · subst h
      simp [alistSet, alistGet, hne']
    · simp only [alistSet, if_neg h]
      by_cases h2 : k₁ = k' <;> simp [alistGet, h2, ih]

/-! # Lemmas about Config.update (doUpdate) -/

/-- A key not named in the update source keeps its value. -/
theorem updateEntries_frame (ux : List (Seg × Node)) :
    ∀ dx r, updateEntries dx ux = .ok r →
    ∀ k, (∀ p ∈ ux, p.1 ≠ k) → alistGet r k = alistGet dx k := by
  induction ux with
  | nil =>
    intro dx r h k _
    simp only [updateEntries] at h
    cases h
    rfl
  | cons p rest ih =>
    intro dx r h k hk
    obtain ⟨k₁, v₁⟩ := p
    have hk₁ : k₁ ≠ k := hk (k₁, v₁) (List.mem_cons_self _ _)
    cases v₁ with
    | map vm =>
      simp only [updateEntries] at h
      cases hdo : doUpdate (alistGetD dx k₁ (.map [])) (.map vm) with
      | error e => rw [hdo] at h; cases h
      | ok merged =>
        rw [hdo] at h
        have := ih (alistSet dx k₁ merged) r h k
          (fun q hq => hk q (List.mem_cons_of_mem _ hq))
        rw [this]
        exact alistGet_set_ne _ _ _ _ (Ne.symm hk₁)
    | null =>
      simp only [updateEntries] at h
      have := ih (alistSet dx k₁ .null) r h k
        (fun q hq => hk q (List.mem_cons_of_mem _ hq))
      rw [this]
      exact alistGet_set_ne _ _ _ _ (Ne.symm hk₁)
    | bool b =>
      simp only [updateEntries] at h
      have := ih (alistSet dx k₁ (.bool b)) r h k
        (fun q hq => hk q (List.mem_cons_of_mem _ hq))
      rw [this]
      exact alistGet_set_ne _ _ _ _ (Ne.symm hk₁)
    | int n =>
      simp only [updateEntries] at h
      have := ih (alistSet dx k₁ (.int n)) r h k
        (fun q hq => hk q (List.mem_cons_of_mem _ hq))
      rw [this]
      exact alistGet_set_ne _ _ _ _ (Ne.symm hk₁)
    | str s =>
      simp only [updateEntries] at h
      have := ih (alistSet dx k₁ (.str s)) r h k
        (fun q hq => hk q (List.mem_cons_of_mem _ hq))
      rw [this]
      exact alistGet_set_ne _ _ _ _ (Ne.symm hk₁)
    | seq s =>
      simp only [updateEntries] at h
      have := ih (alistSet dx k₁ (.seq s)) r h k
        (fun q hq => hk q (List.mem_cons_of_mem _ hq))
      rw [this]
      exact alistGet_set_ne _ _ _ _ (Ne.symm hk₁)

/-- A non-mapping value of the update source ends up verbatim in the result
(source keys assumed unique, as Python dict iteration provides). -/
theorem updateEntries_scalar (ux : List (Seg × Node)) :
    ∀ dx r k v, (ux.map Prod.fst).Nodup → updateEntries dx ux = .ok r →
    alistGet ux k = some v → isMapNode v = false → alistGet r k = some v := by
  induction ux with
  | nil => intro dx r k v _ _ hg; simp [alistGet] at hg
  | cons p rest ih =>
    intro dx r k v hnd h hg hv
    obtain ⟨k₁, v₁⟩ := p
    simp only [List.map_cons, List.nodup_cons, List.mem_map] at hnd
    by_cases hk : k₁ = k
    · subst hk
      have hv₁ : v₁ = v := by simpa [alistGet] using hg
      subst hv₁
      have hrest : ∀ q ∈ rest, q.1 ≠ k₁ := by
        intro q hq hq1
        exact hnd.1 ⟨q, hq, hq1⟩
      cases v₁ with
      | map vm => simp [isMapNode] at hv
      | null =>
        simp only [updateEntries] at h
        rw [updateEntries_frame rest _ _ h k₁ hrest, alistGet_set_self]
      | bool b =>
        simp only [updateEntries] at h
        rw [updateEntries_frame rest _ _ h k₁ hrest, alistGet_set_self]
      | int n =>
        simp only [updateEntries] at h
        rw [updateEntries_frame rest _ _ h k₁ hrest, alistGet_set_self]
      | str s =>
        simp only [updateEntries] at h
        rw [updateEntries_frame rest _ _ h k₁ hrest, alistGet_set_self]
      | seq s =>
        simp only [updateEntries] at h
        rw [updateEntries_frame rest _ _ h k₁ hrest, alistGet_set_self]
    · have hg' : alistGet rest k = some v := by simpa [alistGet, hk] using hg
      cases v₁ with
      | map vm =>
        simp only [updateEntries] at h
        cases hdo : doUpdate (alistGetD dx k₁ (.map [])) (.map vm) with
        | error e => rw [hdo] at h; cases h
        | ok merged => rw [hdo] at h; exact ih _ _ _ _ hnd.2 h hg' hv
      | null => simp only [updateEntries] at h; exact ih _ _ _ _ hnd.2 h hg' hv
      | bool b => simp only [updateEntries] at h; exact ih _ _ _ _ hnd.2 h hg' hv
      | int n => simp only [updateEntries] at h; exact ih _ _ _ _ hnd.2 h hg' hv
      | str s => simp only [updateEntries] at h; exact ih _ _ _ _ hnd.2 h hg' hv
      | seq s => simp only [updateEntries] at h; exact ih _ _ _ _ hnd.2 h hg' hv

/-! # Claim C2 -/

/-- C2: Config.update merge law.  For a document whose entries are dx, an
update with the single pair (k, v): when v is a mapping it is recursively
merged (by doUpdate) into the existing value at k, an empty mapping standing
in when k is absent, and the merged node is stored at k; when v is not a
mapping it replaces the previous value at k outright.  In particular updating
a-maps-to-b1 with a-maps-to-c2 yields the combined inner mapping, while
updating it with a-maps-to-5 replaces the whole inner mapping by 5. -/
theorem C2_update_merge_law :
    (∀ (dx : List (Seg × Node)) (k : Seg) (vm : List (Seg × Node)) (merged : Node),
      doUpdate (alistGetD dx k (.map [])) (.map vm) = .ok merged →
      doUpdate (.map dx) (.map [(k, .map vm)]) = .ok (.map (alistSet dx k merged)))
    ∧ (∀ (dx : List (Seg × Node)) (k : Seg) (v : Node),
      isMapNode v = false →
      doUpdate (.map dx) (.map [(k, v)]) = .ok (.map (alistSet dx k v)))
    ∧ doUpdate (.map [(.str "a", .map [(.str "b", .int 1)])])
        (.map [(.str "a", .map [(.str "c", .int 2)])])
        = .ok (.map [(.str "a", .map [(.str "b", .int 1), (.str "c", .int 2)])])
    ∧ doUpdate (.map [(.str "a", .map [(.str "b", .int 1)])])
        (.map [(.str "a", .int 5)])
        = .ok (.map [(.str "a", .int 5)]) := by
  refine ⟨?_, ?_, rfl, rfl⟩
  · intro dx k vm merged h
    have step : updateEntries dx [(k, Node.map vm)] = .ok (alistSet dx k merged) := by
      simp only [updateEntries, h]
    simp only [doUpdate, step]
  · intro dx k v hv
    cases v <;> simp_all [doUpdate, updateEntries, isMapNode]

/-- C2 witness: the merge law applied at a concrete input. -/
theorem C2_update_merge_law_witness :
    doUpdate (.map [(.str "a", .map [(.str "b", .int 1)])])
        (.map [(.str "a", .map [(.str "c", .int 2)])])
      = .ok (.map (alistSet [(.str "a", .map [(.str "b", .int 1)])] (.str "a")
          (.map [(.str "b", .int 1), (.str "c", .int 2)])))
    ∧ doUpdate (.map [(.str "a", .map [(.str "b", .int 1)])])
        (.map [(.str "a", .int 5)])
      = .ok (.map (alistSet [(.str "a", .map [(.str "b", .int 1)])] (.str "a") (.int 5))) :=
  ⟨C2_update_merge_law.1 [(.str "a", .map [(.str "b", .int 1)])] (.str "a")
      [(.str "c", .int 2)] (.map [(.str "b", .int 1), (.str "c", .int 2)]) rfl,
   C2_update_merge_law.2.1 [(.str "a", .map [(.str "b", .int 1)])] (.str "a") (.int 5) rfl⟩

/-! # Claim C3 -/

/-- C3 counterexample: merging a plain dict raises AttributeError (the code
deep-copies the dict, shallow-updates it, then reads the nonexistent _data
attribute), so x.merge with the plain dict of the claim's example does not
produce the merged configuration the claim requires for every dict or Config
argument. -/
theorem C3_merge_plain_dict_counterexample :
    mergeConfig (.map [(.str "b", .int 3)])
        (.dict (.map [(.str "a", .int 1), (.str "b", .int 2)]))
      = .error (.attributeError "dict object has no attribute _data") := rfl

/-- C3 amended: merge() precedence law for a Config argument.  With other a
Config, x.merge(other) is deepcopy(other) updated with x; in the merged
result every top-level key of x holding a non-mapping value keeps x's value,
keys absent from x are filled from other, and the claim's concrete example
composes to a-1-b-3.  With other a plain dict, merge raises AttributeError
instead. -/
theorem C3_merge_precedence :
    (∀ (sx od : Node),
      mergeConfig sx (.dict od)
        = .error (.attributeError "dict object has no attribute _data"))
    ∧ (∀ (ox sx m : List (Seg × Node)),
      (sx.map Prod.fst).Nodup →
      mergeConfig (.map sx) (.config (.map ox)) = .ok (.map m) →
      (∀ k v, alistGet sx k = some v → isMapNode v = false → alistGet m k = some v)
      ∧ (∀ k, (∀ p ∈ sx, p.1 ≠ k) → alistGet m k = alistGet ox k))
    ∧ mergeConfig (.map [(.str "b", .int 3)])
        (.config (.map [(.str "a", .int 1), (.str "b", .int 2)]))
        = .ok (.map [(.str "a", .int 1), (.str "b", .int 3)]) := by
  refine ⟨fun _ _ => rfl, ?_, rfl⟩
  intro ox sx m hnd h
  have h' : updateEntries ox sx = .ok m := by
    simp only [mergeConfig, doUpdate] at h
    cases hue : updateEntries ox sx with
    | error e => rw [hue] at h; cases h
    | ok r => rw [hue] at h; cases h; rfl
  exact ⟨fun k v hg hv => updateEntries_scalar sx ox m k v hnd h' hg hv,
         fun k hk => updateEntries_frame sx ox m h' k hk⟩

/-- C3 witness: the amended precedence law applied at the claim's example. -/
theorem C3_merge_precedence_witness :
    alistGet [(.str "a", .int 1), (.str "b", .int 3)] (.str "b") = some (.int 3)
    ∧ alistGet [(.str "a", .int 1), (.str "b", .int 3)] (.str "a")
        = alistGet [(.str "a", .int 1), (.str "b", .int 2)] (.str "a") := by
  have h := C3_merge_precedence.2.1 [(.str "a", .int 1), (.str "b", .int 2)]
    [(.str "b", .int 3)] [(.str "a", .int 1), (.str "b", .int 3)]
    (by simp) rfl
  exact ⟨h.1 (.str "b") (.int 3) rfl rfl, h.2 (.str "a") (by decide)⟩

/-! # Claim C6 -/

/-- C6: validation completeness.  The missing list carries exactly the
required keys absent from the document (a membership test per key, with no
stop at the first miss); when every required key is present validation
succeeds; and the claim's scenario, composing a subset requiring x and y from
a document holding only x with validation enabled, fails naming exactly y. -/
theorem C6_validation_completeness :
    (∀ (rk : List String) (d : Node) (m : List String),
      validateRequired rk d = .error (.missingRequired m) →
      ∀ k, k ∈ m ↔ (k ∈ rk ∧ topLevelHas d k = false))
    ∧ (∀ (rk : List String) (d : Node),
      (∀ k ∈ rk, topLevelHas d k = true) → validateRequired rk d = .ok ())
    ∧ configSubsetInit ⟨none, ["x", "y"], none⟩ (fun _ => none) (fun _ => none)
        [] "bdir" 1 (.map [(.str "x", .int 1)]) true true []
        = .error (.missingRequired ["y"]) := by
  refine ⟨?_, ?_, rfl⟩
  · intro rk d m h k
    simp only [validateRequired] at h
    split at h
    · cases h
    · cases h
      simp [List.mem_filter]
  · intro rk d h
    have : rk.filter (fun k => !topLevelHas d k) = [] := by
      rw [List.filter_eq_nil_iff]
      intro a ha
      simp [h a ha]
    simp [validateRequired, this]

/-- C6 witness: completeness and success applied at concrete inputs. -/
theorem C6_validation_completeness_witness :
    ("y" ∈ (["y"] : List String)
      ↔ ("y" ∈ (["x", "y"] : List String)
          ∧ topLevelHas (.map [(.str "x", .int 1)]) "y" = false))
    ∧ validateRequired ["x"] (.map [(.str "x", .int 1)]) = .ok () := by
  refine ⟨C6_validation_completeness.1 ["x", "y"] (.map [(.str "x", .int 1)]) ["y"] rfl "y", ?_⟩
  exact C6_validation_completeness.2.1 ["x"] (.map [(.str "x", .int 1)]) (by decide)

/-! # Lemmas about the deletion descent -/

/-- The deletion descent can never succeed from a detached None or from a
string node: every continuation ends in a TypeError or KeyError. -/
theorem delPathAux_detached (ks : List Seg) :
    (∀ last r, delPathAux .null ks last ≠ .ok r)
    ∧ (∀ t last r, delPathAux (.str t) ks last ≠ .ok r) := by
  induction ks with
  | nil =>
    constructor
    · intro last r h
      simp [delPathAux, delFrom] at h
    · intro t last r h
      simp [delPathAux, delFrom] at h
  | cons k rest ih =>
    constructor
    · intro last r h
      simp [delPathAux] at h
    · intro t last r h
      cases k with
      | int i =>
        simp only [delPathAux] at h
        cases hpi : pyIndex t.data i with
        | some ch => simp only [hpi] at h; exact ih.2 _ _ _ h
        | none => simp only [hpi] at h; cases h
      | str s =>
        simp only [delPathAux] at h
        cases hti : pyToInt s with
        | some i =>
          simp only [hti] at h
          cases hpi : pyIndex t.data i with
          | some ch => simp only [hpi] at h; exact ih.2 _ _ _ h
          | none => simp only [hpi] at h; cases h
        | none =>
          simp only [hti] at h
          by_cases hs : pySub s.data t.data
          · rw [if_pos hs] at h; exact ih.1 _ _ h
          · rw [if_neg hs] at h; cases h

/-- Writing a list element leaves it readable at the same index. -/
theorem pyIndex_set (xs : List Node) (i : Int) (v : Node) (xs' : List Node)
    (h : pySetIdx xs i v = .ok xs') : pyIndex xs' i = some v := by
  simp only [pySetIdx] at h
  by_cases hi : 0 ≤ i
  · rw [if_pos hi] at h
    by_cases hlt : i < (xs.length : Int)
    · rw [if_pos hlt] at h
      cases h
      have hnat : i.toNat < xs.length := by omega
      simp only [pyIndex, if_pos hi]
      exact List.getElem?_set_eq_of_lt v hnat
    · rw [if_neg hlt] at h; cases h
  · rw [if_neg hi] at h
    by_cases hge : 0 ≤ i + (xs.length : Int)
    · rw [if_pos hge] at h
      cases h
      have hnat : (i + (xs.length : Int)).toNat < xs.length := by omega
      simp only [pyIndex, if_neg hi, List.length_set]
      rw [if_pos hge]
      exact List.getElem?_set_eq_of_lt v hnat
    · rw [if_neg hge] at h; cases h

/-! # Claim C7 -/

/-- C7: deletion leaves empty ancestors.  Whenever the deletion descent
succeeds, the full leading hierarchy still resolves in the resulting
document, so no now-empty ancestor was pruned; and the claim's scenario holds
concretely: in an empty Config, setting key a-dot-b to 1 and deleting it
leaves key a present and equal to an empty mapping. -/
theorem C7_deletion_keeps_ancestors :
    (∀ (ks : List Seg) (root : Node) (last : Seg) (root' : Node),
      delPathAux root ks last = .ok root' →
      ∃ h, findInHierarchy root' ks = .ok (h, true))
    ∧ setItem (.map []) (.str ".a.b") (.int 1)
        = .ok (.map [(.str "a", .map [(.str "b", .int 1)])])
    ∧ delItem (.map [(.str "a", .map [(.str "b", .int 1)])]) (.str ".a.b")
        = .ok (.map [(.str "a", .map [])])
    ∧ containsKey (.map [(.str "a", .map [])]) (.str "a") = .ok true
    ∧ getItem (.map [(.str "a", .map [])]) (.str "a") = .ok (.map []) := by
  refine ⟨?_, rfl, rfl, rfl, rfl⟩
  intro ks
  induction ks with
  | nil =>
    intro root last root' _
    exact ⟨[], rfl⟩
  | cons k rest ih =>
    intro root last root' h
    cases root with
    | null => simp [delPathAux] at h
    | int n => simp [delPathAux] at h
    | bool b => simp [delPathAux] at h
    | str t => exact absurd h ((delPathAux_detached (k :: rest)).2 t last root')
    | map xs =>
      simp only [delPathAux] at h
      cases hget : alistGet xs k with
      | none => simp only [hget] at h; cases h
      | some child =>
        simp only [hget] at h
        cases hrec : delPathAux child rest last with
        | error e => simp only [hrec] at h; cases h
        | ok child' =>
          simp only [hrec] at h
          cases h
          obtain ⟨hh, hfind⟩ := ih child last child' hrec
          refine ⟨child' :: hh, ?_⟩
          simp only [findInHierarchy, checkNextItem, alistGet_set_self, hfind]
    | seq xs =>
      cases k with
      | int i =>
        simp only [delPathAux] at h
        cases hpi : pyIndex xs i with
        | none => simp only [hpi] at h; cases h
        | some child =>
          simp only [hpi] at h
          cases hrec : delPathAux child rest last with
          | error e => simp only [hrec] at h; cases h
          | ok child' =>
            simp only [hrec] at h
            cases hset : pySetIdx xs i child' with
            | error e => simp only [hset] at h; cases h
            | ok xs' =>
              simp only [hset] at h
              cases h
              obtain ⟨hh, hfind⟩ := ih child last child' hrec
              refine ⟨child' :: hh, ?_⟩
              have hidx : pyIndex xs' i = some child' := pyIndex_set xs i child' xs' hset
              simp only [findInHierarchy, checkNextItem, hidx, hfind]
      | str s =>
        simp only [delPathAux] at h
        cases hti : pyToInt s with
        | some i =>
          simp only [hti] at h
          cases hpi : pyIndex xs i with
          | none => simp only [hpi] at h; cases h
          | some child =>
            simp only [hpi] at h
            cases hrec : delPathAux child rest last with
            | error e => simp only [hrec] at h; cases h
            | ok child' =>
              simp only [hrec] at h
              cases hset : pySetIdx xs i child' with
              | error e => simp only [hset] at h; cases h
              | ok xs' =>
                simp only [hset] at h
                cases h
                obtain ⟨hh, hfind⟩ := ih child last child' hrec
                refine ⟨child' :: hh, ?_⟩
                have hidx : pyIndex xs' i = some child' := pyIndex_set xs i child' xs' hset
                simp only [findInHierarchy, checkNextItem, hti, hidx, hfind]
        | none =>
          simp only [hti] at h
          by_cases hmem : seqHasStr xs s
          · rw [if_pos hmem] at h
            exact absurd h ((delPathAux_detached rest).1 last root')
          · rw [if_neg hmem] at h; cases h

/-- C7 witness: the frame property applied at the scenario's deletion. -/
theorem C7_deletion_keeps_ancestors_witness :
    ∃ h, findInHierarchy (.map [(.str "a", .map [])]) [.str "a"] = .ok (h, true) :=
  C7_deletion_keeps_ancestors.1 [.str "a"]
    (.map [(.str "a", .map [(.str "b", .int 1)])]) (.str "b")
    (.map [(.str "a", .map [])]) rfl

/-! # Extending a complete descent by one segment -/

/-- When the descent along p is complete and one further step resolves from
the last value reached, the descent along p extended by that segment is
complete and ends at the step's value. -/
theorem find_append_last (p : List Seg) :
    ∀ (d : Node) (h : List Node) (z w : Node) (k : Seg),
      findInHierarchy d p = .ok (h, true) → h.getLast? = some z →
      checkNextItem k z = .ok (some w) →
      findInHierarchy d (p ++ [k]) = .ok (h ++ [w], true) := by
  induction p with
  | nil =>
    intro d h z w k hf hl _
    simp only [findInHierarchy] at hf
    cases hf
    simp at hl
  | cons k₀ rest ih =>
    intro d h z w k hf hl hc
    simp only [findInHierarchy] at hf
    cases hcn : checkNextItem k₀ d with
    | error e => simp only [hcn] at hf; cases hf
    | ok o =>
      cases o with
      | none => simp only [hcn] at hf; cases hf
      | some v =>
        simp only [hcn] at hf
        cases hrest : findInHierarchy v rest with
        | error e => simp only [hrest] at hf; cases hf
        | ok pr =>
          obtain ⟨h₀, c⟩ := pr
          simp only [hrest] at hf
          cases hf
          simp only [List.cons_append, findInHierarchy, hcn]
          cases h₀ with
          | nil =>
            have hz : v = z := by simpa using hl
            cases rest with
            | nil =>
              subst hz
              simp [findInHierarchy, hc]
            | cons r rs =>
              exfalso
              simp only [findInHierarchy] at hrest
              cases hcn2 : checkNextItem r v with
              | error e => simp only [hcn2] at hrest; cases hrest
              | ok o2 =>
                cases o2 with
                | none => simp only [hcn2] at hrest; cases hrest
                | some v2 =>
                  simp only [hcn2] at hrest
                  cases h3 : findInHierarchy v2 rs with
                  | error e => simp only [h3] at hrest; cases hrest
                  | ok pr2 =>
                    obtain ⟨hh2, c2⟩ := pr2
                    simp only [h3] at hrest
                    cases hrest
          | cons x h₁ =>
            have hl' : (x :: h₁).getLast? = some z := by
              rw [List.getLast?_cons_cons] at hl
              exact hl
            have hih := ih v (x :: h₁) z w k hrest hl' hc
            simp only [List.append_eq] at hih ⊢
            rw [hih]

/-! # Claim C10 -/

/-- C10: path descent does not stop at string scalars.  When the segment
path p resolves to a string value s and i indexes a character of s, the
extended path p plus the integer segment i is reported contained and getting
it returns the one-character string s[i] — strings are indexable sequence
nodes during hierarchy descent. -/
theorem C10_string_descent :
    ∀ (root : Node) (p : List Seg) (s : String) (i : Nat) (c : Char),
      getItem root (.segs p) = .ok (.str s) →
      s.data[i]? = some c →
      containsKey root (.segs (p ++ [.int (i : Int)])) = .ok true
      ∧ getItem root (.segs (p ++ [.int (i : Int)])) = .ok (.str ⟨[c]⟩) := by
  intro root p s i c hget hc
  simp only [getItem, getKeyHierarchy] at hget
  cases hfind : findInHierarchy root p with
  | error e => simp only [hfind] at hget; cases hget
  | ok pr =>
    obtain ⟨h, complete⟩ := pr
    simp only [hfind] at hget
    cases complete with
    | false => simp only [if_neg (by simp : ¬(false = true))] at hget; cases hget
    | true =>
      simp only [if_pos rfl] at hget
      cases hlast : h.getLast? with
      | none => simp only [hlast] at hget; cases hget
      | some v =>
        simp only [hlast] at hget
        cases hget
        have hstep : checkNextItem (.int (i : Int)) (.str s) = .ok (some (.str ⟨[c]⟩)) := by
          have hnn : (0 : Int) ≤ (i : Int) := Int.ofNat_nonneg i
          simp only [checkNextItem, pyIndex, if_pos hnn, Int.toNat_ofNat]
          rw [hc]
        have hfind' := find_append_last p root h (.str s) (.str ⟨[c]⟩) (.int (i : Int))
          hfind hlast hstep
        constructor
        · simp only [containsKey, getKeyHierarchy, hfind']
        · simp only [getItem, getKeyHierarchy, hfind']
          rw [show (h ++ [Node.str ⟨[c]⟩]).getLast? = some (Node.str ⟨[c]⟩) by
            rw [List.getLast?_append_cons]
            rfl]
          simp

/-- C10 witness: the string-descent property at a concrete document. -/
theorem C10_string_descent_witness :
    containsKey (.map [(.str "a", .str "hi")]) (.segs [.str "a", .int (1 : Nat)]) = .ok true
    ∧ getItem (.map [(.str "a", .str "hi")]) (.segs [.str "a", .int (1 : Nat)])
        = .ok (.str ⟨['i']⟩) :=
  C10_string_descent (.map [(.str "a", .str "hi")]) [.str "a"] "hi" 1 'i' rfl rfl

/-! # Claim C9: delimiter auto-selection in names() -/

/-- The sequence of candidate delimiters the search loop visits: the start
character, then fuel successive advances to the next non-alphanumeric
character. -/
def candidateChain (c : Char) : Nat → List Char
  | 0 => [c]
  | n + 1 => c :: candidateChain (nextCandidate c) n

/-- A delimiter the search returns does not occur in the combined segment
string. -/
theorem findDelimAux_sound (combined : List Char) :
    ∀ (fuel : Nat) (dl d₂ : Char),
      findDelimAux combined dl fuel = .ok d₂ → pySub [d₂] combined = false := by
  intro fuel
  induction fuel with
  | zero =>
    intro dl d₂ h
    by_cases hs : pySub [dl] combined
    · rw [findDelimAux, if_pos hs] at h
      cases h
    · rw [findDelimAux, if_neg hs] at h
      cases h
      exact Bool.not_eq_true _ ▸ (by simpa using hs)
  | succ n ih =>
    intro dl d₂ h
    by_cases hs : pySub [dl] combined
    · rw [findDelimAux, if_pos hs] at h
      exact ih (nextCandidate dl) d₂ h
    · rw [findDelimAux, if_neg hs] at h
      cases h
      simpa using hs

/-- When every candidate in the retry budget occurs in the combined segment
string, the search fails with a ValueError. -/
theorem findDelimAux_exhausted (combined : List Char) :
    ∀ (fuel : Nat) (dl : Char),
      (∀ x ∈ candidateChain dl fuel, pySub [x] combined = true) →
      findDelimAux combined dl fuel
        = .error (.valueError "Unable to determine a delimiter for Config") := by
  intro fuel
  induction fuel with
  | zero =>
    intro dl hall
    have h0 : pySub [dl] combined = true := hall dl (by simp [candidateChain])
    rw [findDelimAux, if_pos h0]
  | succ n ih =>
    intro dl hall
    have h0 : pySub [dl] combined = true := hall dl (by simp [candidateChain])
    rw [findDelimAux, if_pos h0]
    exact ih (nextCandidate dl)
      (fun x hx => hall x (by simp [candidateChain, hx]))

/-- C9: delimiter auto-selection.  When names() without an explicit delimiter
succeeds, the names are rendered with a delimiter that does not occur in the
concatenation of all rendered segments; when every one of the 101 candidates
(the default and its 100 successive non-alphanumeric advances) occurs in that
concatenation, names() fails with a ValueError instead of returning names. -/
theorem C9_delimiter_selection :
    (∀ (root : Node) (l : List String),
      namesConfig root none = .ok l →
      ∃ dl, pySub [dl] (combinedOf root) = false
        ∧ l = (nameTuples root).map (renderName dl))
    ∧ (∀ (root : Node),
      (∀ x ∈ candidateChain defaultDelim 100, pySub [x] (combinedOf root) = true) →
      namesConfig root none
        = .error (.valueError "Unable to determine a delimiter for Config")) := by
  constructor
  · intro root l h
    simp only [namesConfig] at h
    cases hfd : findDelimAux (combinedOf root) defaultDelim 100 with
    | error e => simp only [hfd] at h; cases h
    | ok dl =>
      simp only [hfd] at h
      cases h
      exact ⟨dl, findDelimAux_sound (combinedOf root) 100 defaultDelim dl hfd, rfl⟩
  · intro root hall
    simp only [namesConfig]
    rw [findDelimAux_exhausted (combinedOf root) 100 defaultDelim hall]

/-- A key holding every candidate delimiter character, making automatic
selection impossible. -/
def arrowKey : String := ⟨(List.range 101).map (fun i => Char.ofNat (0x2192 + i))⟩

set_option maxRecDepth 100000 in
/-- C9 witness: the success property applied at a one-key document, and the
failure property applied at a document whose only key contains all 101
candidate characters. -/
theorem C9_delimiter_selection_witness :
    (∃ dl, pySub [dl] (combinedOf (.map [(.str "k", .int 1)])) = false
      ∧ ["→k"] = (nameTuples (.map [(.str "k", .int 1)])).map (renderName dl))
    ∧ namesConfig (.map [(.str arrowKey, .int 1)]) none
        = .error (.valueError "Unable to determine a delimiter for Config") :=
  ⟨C9_delimiter_selection.1 (.map [(.str "k", .int 1)]) ["→k"] rfl,
   C9_delimiter_selection.2 (.map [(.str arrowKey, .int 1)]) (by decide)⟩

/-! # Claim C5: defaults layering in ConfigSubset -/

/-- The file system of the defaults-layering scenario: the built-in directory
holds the default a-1-b-1, the environment directory holds b-2. -/
def fsC5 : String → Option Node := fun p =>
  if p = "bdir/df.yaml" then some (.map [(.str "a", .int 1), (.str "b", .int 1)])
  else if p = "edir/df.yaml" then some (.map [(.str "b", .int 2)])
  else none

/-- C5: defaults layering precedence.  The search-path merge applies files in
reverse priority order: with a higher-priority directory hi and a
lower-priority directory lo both containing the default file, the lo file is
merged first and the hi file last (so hi wins); directories without the file
are skipped untouched; and the claim's scenario composes built-in a-1-b-1,
environment b-2 and explicit b-3 into a-1-b-3 through the full ConfigSubset
construction. -/
theorem C5_defaults_layering :
    (∀ (selfD : Node) (hi lo f : String) (fs : String → Option Node)
        (chi clo s₁ : Node),
      isAbsPath f = false →
      fs (joinPath hi f) = some chi → fs (joinPath lo f) = some clo →
      doUpdate selfD clo = .ok s₁ →
      updateWithConfigsFromPath none fs selfD [hi, lo] f = doUpdate s₁ chi)
    ∧ (∀ (selfD : Node) (dirs : List String) (f : String) (fs : String → Option Node),
      isAbsPath f = false →
      (∀ d ∈ dirs, fs (joinPath d f) = none) →
      updateWithConfigsFromPath none fs selfD dirs f = .ok selfD)
    ∧ configSubsetInit ⟨none, [], some "df.yaml"⟩ (fun _ => none) fsC5
        ["edir"] "bdir" 1 (.map [(.str "b", .int 3)]) true true []
        = .ok (.map [(.str "a", .int 1), (.str "b", .int 3)]) := by
  refine ⟨?_, ?_, rfl⟩
  · intro selfD hi lo f fs chi clo s₁ habs hhi hlo hdo
    simp only [updateWithConfigsFromPath, habs, Bool.false_eq_true, if_false]
    have hrev : [hi, lo].reverse = [lo, hi] := rfl
    rw [hrev]
    simp only [List.foldlM, hlo, hhi, selectComponent, hdo, bind, Except.bind]
    cases doUpdate s₁ chi <;> rfl
  · intro selfD dirs f fs habs hnone
    simp only [updateWithConfigsFromPath, habs, Bool.false_eq_true, if_false]
    have hrev : ∀ d ∈ dirs.reverse, fs (joinPath d f) = none := by
      intro d hd
      exact hnone d (List.mem_reverse.mp hd)
    generalize hgen : dirs.reverse = ds
    rw [hgen] at hrev
    clear hgen hnone
    revert hrev
    induction ds with
    | nil => intro _; rfl
    | cons d ds ih =>
      intro hrev
      simp only [List.foldlM, hrev d (List.mem_cons_self _ _), bind, Except.bind]
      exact ih (fun x hx => hrev x (List.mem_cons_of_mem _ hx))

/-- C5 witness: reverse-order application and skipping applied at the
scenario's file system. -/
theorem C5_defaults_layering_witness :
    updateWithConfigsFromPath none fsC5 (.map []) ["edir", "bdir"] "df.yaml"
      = doUpdate (.map [(.str "a", .int 1), (.str "b", .int 1)]) (.map [(.str "b", .int 2)])
    ∧ updateWithConfigsFromPath none (fun _ => none) (.map []) ["pdir"] "df.yaml"
      = .ok (.map []) :=
  ⟨C5_defaults_layering.1 (.map []) "edir" "bdir" "df.yaml" fsC5
      (.map [(.str "b", .int 2)]) (.map [(.str "a", .int 1), (.str "b", .int 1)])
      (.map [(.str "a", .int 1), (.str "b", .int 1)]) rfl rfl rfl rfl,
   C5_defaults_layering.2.1 (.map []) ["pdir"] "df.yaml" (fun _ => none) rfl
      (fun _ _ => rfl)⟩

/-! # Claim C4: include precedence -/

/-- Sequencing of foldlM over an appended list in the Except monad. -/
theorem foldlM_append_except {α β : Type} (f : β → α → Except PyErr β)
    (l₁ : List α) :
    ∀ (l₂ : List α) (b : β),
      (l₁ ++ l₂).foldlM f b
        = (match l₁.foldlM f b with
           | .error e => .error e
           | .ok b' => l₂.foldlM f b') := by
  induction l₁ with
  | nil =>
    intro l₂ b
    simp [List.foldlM, pure, Except.pure]
  | cons a l₁ ih =>
    intro l₂ b
    simp only [List.cons_append, List.foldlM, bind, Except.bind]
    cases f b a with
    | error e => rfl
    | ok b' => exact ih l₂ b'

/-- Paths not ending in the include key are skipped without touching the
document. -/
theorem foldl_skip_includes (rc : String → Option Node) :
    ∀ (ps : List (List Seg)) (st : Node),
      (∀ p ∈ ps, p.getLast? ≠ some includeKey) →
      ps.foldlM (fun st p => processOneInclude st p rc) st = .ok st := by
  intro ps
  induction ps with
  | nil => intro st _; rfl
  | cons p ps ih =>
    intro st hp
    have h1 : processOneInclude st p rc = .ok st := by
      rw [processOneInclude, if_neg (hp p (List.mem_cons_self _ _))]
    simp only [List.foldlM, h1, bind, Except.bind]
    exact ih st (fun q hq => hp q (List.mem_cons_of_mem _ hq))

/-- Resolution of a list of string include names succeeds when every name
resolves, yielding the parsed documents in order. -/
theorem resolveIncludes_all (rc : String → Option Node) :
    ∀ (files : List String) (cs : List Node),
      List.Forall₂ (fun f c => rc f = some c) files cs →
      resolveIncludes rc (files.map Node.str) = .ok cs := by
  intro files
  induction files with
  | nil =>
    intro cs h
    cases h
    rfl
  | cons f fs ih =>
    intro cs h
    cases h with
    | cons hf hrest =>
      simp only [List.map_cons, resolveIncludes, hf, ih _ hrest]

/-- C4: include precedence.  For a document whose root holds the reserved
includeConfigs key with a list of file names, all resolving, and no other
path ending in the include key, resolution merges the referenced documents
left to right with update semantics and then overlays the node's own
remaining keys (the document minus the directive) on top, explicit values
winning; the directive key itself is deleted.  The claim's scenario holds
concretely: A = includeConfigs-B-then-y-3 with B = x-1-y-2 resolves to
x-1-y-3. -/
theorem C4_include_precedence :
    (∀ (xs : List (Seg × Node)) (files : List String) (rc : String → Option Node)
        (c₀ : Node) (crest : List Node) (pre post : List (List Seg)),
      nameTuples (.map xs) = pre ++ [Seg.str "includeConfigs"] :: post →
      (∀ p ∈ pre, p.getLast? ≠ some includeKey) →
      (∀ p ∈ post, p.getLast? ≠ some includeKey) →
      alistGet xs includeKey = some (.seq (files.map Node.str)) →
      List.Forall₂ (fun f c => rc f = some c) files (c₀ :: crest) →
      processExplicitIncludes (.map xs) rc
        = (match crest.foldlM doUpdate c₀ with
           | .error e => .error e
           | .ok nc => doUpdate nc (.map (alistDel xs includeKey))))
    ∧ processExplicitIncludes
        (.map [(.str "includeConfigs", .seq [.str "B.yaml"]), (.str "y", .int 3)])
        (fun n => if n = "B.yaml"
                  then some (.map [(.str "x", .int 1), (.str "y", .int 2)])
                  else none)
        = .ok (.map [(.str "x", .int 1), (.str "y", .int 3)]) := by
  refine ⟨?_, rfl⟩
  intro xs files rc c₀ crest pre post hname hpre hpost hget hres
  have hstep : processOneInclude (.map xs) [Seg.str "includeConfigs"] rc
      = (match crest.foldlM doUpdate c₀ with
         | .error e => .error e
         | .ok nc => doUpdate nc (.map (alistDel xs includeKey))) := by
    have hcond : ([Seg.str "includeConfigs"] : List Seg).getLast? = some includeKey := rfl
    rw [processOneInclude, if_pos hcond]
    have hget' : alistGet xs (Seg.str "includeConfigs") = some (.seq (files.map Node.str)) :=
      hget
    have hgetItem : getItem (.map xs) (.segs [Seg.str "includeConfigs"])
        = .ok (.seq (files.map Node.str)) := by
      simp only [getItem, getKeyHierarchy, findInHierarchy, checkNextItem]
      rw [hget']
      rfl
    have hdelItem : delItem (.map xs) (.segs [Seg.str "includeConfigs"])
        = .ok (.map (alistDel xs includeKey)) := by
      simp only [delItem, getKeyHierarchy, delPathAux, delFrom, hcond]
      rw [hget]
    rw [hgetItem]
    rw [hdelItem]
    simp only [resolveIncludes_all rc files (c₀ :: crest) hres]
    cases hfold : crest.foldlM doUpdate c₀ with
    | error e => simp only [hfold]
    | ok nc => simp only [hfold, List.dropLast, List.isEmpty_nil, if_true]
  simp only [processExplicitIncludes, hname]
  rw [foldlM_append_except]
  rw [foldl_skip_includes rc pre (.map xs) hpre]
  simp only [List.foldlM, hstep, bind, Except.bind]
  cases hfold : crest.foldlM doUpdate c₀ with
  | error e => simp only [hfold]
  | ok nc =>
    simp only [hfold]
    cases hdo : doUpdate nc (.map (alistDel xs includeKey)) with
    | error e => simp only [hdo]
    | ok r =>
      simp only [hdo]
      exact foldl_skip_includes rc post r hpost

/-- C4 witness: the general include-precedence law applied at the scenario's
documents. -/
theorem C4_include_precedence_witness :
    processExplicitIncludes
        (.map [(.str "includeConfigs", .seq [.str "B.yaml"]), (.str "y", .int 3)])
        (fun n => if n = "B.yaml"
                  then some (.map [(.str "x", .int 1), (.str "y", .int 2)])
                  else none)
      = (match ([] : List Node).foldlM doUpdate (.map [(.str "x", .int 1), (.str "y", .int 2)]) with
         | .error e => .error e
         | .ok nc =>
           doUpdate nc (.map (alistDel
             [(.str "includeConfigs", .seq [.str "B.yaml"]), (.str "y", .int 3)] includeKey))) :=
  C4_include_precedence.1
    [(.str "includeConfigs", .seq [.str "B.yaml"]), (.str "y", .int 3)]
    ["B.yaml"]
    (fun n => if n = "B.yaml"
              then some (.map [(.str "x", .int 1), (.str "y", .int 2)])
              else none)
    (.map [(.str "x", .int 1), (.str "y", .int 2)]) []
    [] [[Seg.str "includeConfigs", Seg.int 0], [Seg.str "y"]]
    rfl (by simp) (by decide) rfl (.cons rfl .nil)

/-! # Claim C8: escape round-trip -/

/-- The hierarchy positions a set descends through are all mapping nodes
(existing or to be created): at each level the node is a mapping and, when
the segment is present, the property holds recursively of its value; a
missing segment is fine because the descent creates empty mappings below. -/
def mapPathOK : Node → List Seg → Bool
  | .map _, [] => true
  | .map xs, k :: rest =>
    (match alistGet xs k with
     | some c => mapPathOK c rest
     | none => true)
  | _, _ => false

theorem mapPathOK_empty (ks : List Seg) : mapPathOK (.map []) ks = true := by
  cases ks <;> rfl

/-- A list with a known last element is its dropLast extended by it. -/
theorem eq_dropLast_append_getLast :
    ∀ (keys : List Seg) (last : Seg), keys.getLast? = some last →
      keys = keys.dropLast ++ [last] := by
  intro keys
  induction keys with
  | nil => intro last h; cases h
  | cons x t ih =>
    intro last h
    cases t with
    | nil =>
      cases h
      rfl
    | cons y t' =>
      rw [List.getLast?_cons_cons] at h
      have := ih last h
      calc x :: y :: t' = x :: ((y :: t').dropLast ++ [last]) := by rw [← this]
        _ = (x :: y :: t').dropLast ++ [last] := by simp [List.dropLast]

/-- Setting through a mapping-only hierarchy succeeds, and the full path then
resolves to the stored value. -/
theorem setPath_map_ok (pre : List Seg) :
    ∀ (xs : List (Seg × Node)) (last : Seg) (v : Node),
      mapPathOK (.map xs) pre = true →
      ∃ m' h, setPathAux (.map xs) pre last v = .ok (.map m')
        ∧ findInHierarchy (.map m') (pre ++ [last]) = .ok (h, true)
        ∧ h.getLast? = some v := by
  induction pre with
  | nil =>
    intro xs last v _
    refine ⟨alistSet xs last v, [v], rfl, ?_, rfl⟩
    simp only [List.nil_append, findInHierarchy, checkNextItem, alistGet_set_self]
  | cons k rest ih =>
    intro xs last v hp
    have step :
        ∀ (cxs : List (Seg × Node)), mapPathOK (.map cxs) rest = true →
        ∀ (wb : List (Seg × Node)), setPathAux (.map xs) (k :: rest) last v
            = (match setPathAux (.map cxs) rest last v with
               | .ok child' => .ok (.map (alistSet xs k child'))
               | .error e => .error e) →
        ∃ m' h, setPathAux (.map xs) (k :: rest) last v = .ok (.map m')
          ∧ findInHierarchy (.map m') ((k :: rest) ++ [last]) = .ok (h, true)
          ∧ h.getLast? = some v := by
      intro cxs hpc _ heq
      obtain ⟨m₁, h₁, hset, hfind, hlast⟩ := ih cxs last v hpc
      refine ⟨alistSet xs k (.map m₁), .map m₁ :: h₁, ?_, ?_, ?_⟩
      · rw [heq, hset]
      · simp only [List.cons_append, findInHierarchy, checkNextItem, alistGet_set_self,
          List.append_eq, hfind]
      · cases h₁ with
        | nil => cases hlast
        | cons x h₂ => rw [List.getLast?_cons_cons]; exact hlast
    cases hg : alistGet xs k with
    | some c =>
      simp only [mapPathOK, hg] at hp
      cases c with
      | map cxs =>
        exact step cxs hp [] (by simp only [setPathAux, hg])
      | null => rw [show mapPathOK Node.null rest = false by cases rest <;> rfl] at hp; cases hp
      | bool b =>
        rw [show mapPathOK (Node.bool b) rest = false by cases rest <;> rfl] at hp; cases hp
      | int n =>
        rw [show mapPathOK (Node.int n) rest = false by cases rest <;> rfl] at hp; cases hp
      | str s =>
        rw [show mapPathOK (Node.str s) rest = false by cases rest <;> rfl] at hp; cases hp
      | seq s =>
        rw [show mapPathOK (Node.seq s) rest = false by cases rest <;> rfl] at hp; cases hp
    | none =>
      exact step [] (mapPathOK_empty rest) [] (by simp only [setPathAux, hg])

/-- C8 counterexample: the claim fails as stated.  With the document holding
the one-element list at the literal key k-dot-k, setting through the escaped
expression dot-k-backslash-dot-k-dot-5-dot-0 succeeds (the descent breaks at
the out-of-range index 5 and the trailing assignment lands at index 0 of the
list), but reading the same escaped expression back raises KeyError instead
of returning the stored value. -/
theorem C8_escape_roundtrip_counterexample :
    setItem (.map [(.str "k.k", .seq [.int 1])]) (.str ".k\\.k.5.0") (.int 9)
      = .ok (.map [(.str "k.k", .seq [.int 9])])
    ∧ getItem (.map [(.str "k.k", .seq [.int 9])]) (.str ".k\\.k.5.0")
      = .error (.keyError "not found") := ⟨rfl, rfl⟩

/-- C8 amended: escape round-trip through mapping nodes.  The escaped key
expression dot-a-dot-b-backslash-dot-c splits into exactly the two segments
a and b-dot-c; and for every Config whose set descends only through mapping
nodes (creating missing ones) — rather than breaking early inside a sequence
— setting a value at an escaped path and reading the same expression back
returns the original value (with the exact-match shortcut not engaged on
either side). -/
theorem C8_escape_roundtrip :
    splitIntoKeys ".a.b\\.c" = .ok [Seg.str "a", Seg.str "b.c"]
    ∧ (∀ (m : List (Seg × Node)) (expr : String) (keys pre : List Seg)
        (last : Seg) (v : Node),
      alistGet m (.str expr) = none →
      splitIntoKeys expr = .ok keys →
      keys.dropLast = pre →
      keys.getLast? = some last →
      mapPathOK (.map m) pre = true →
      ∃ m', setItem (.map m) (.str expr) v = .ok (.map m')
        ∧ (alistGet m' (.str expr) = none →
            getItem (.map m') (.str expr) = .ok v)) := by
  refine ⟨rfl, ?_⟩
  intro m expr keys pre last v htop hsplit hpre hlast hok
  obtain ⟨m', h, hset, hfind, hgl⟩ := setPath_map_ok pre m last v hok
  refine ⟨m', ?_, ?_⟩
  · simp only [setItem, getKeyHierarchy, htop, Option.isSome_none, Bool.false_eq_true,
      if_false, hsplit, hlast, hpre, hset]
  · intro htop'
    have hkeys : keys = pre ++ [last] := by
      rw [← hpre]
      exact eq_dropLast_append_getLast keys last hlast
    simp only [getItem, getKeyHierarchy, htop', Option.isSome_none, Bool.false_eq_true,
      if_false, hsplit, ← hkeys] at hfind ⊢
    simp only [hfind, hgl, if_true]

/-- C8 witness: the amended round-trip applied at an escaped path in an
empty Config. -/
theorem C8_escape_roundtrip_witness :
    ∃ m', setItem (.map []) (.str ".a.b\\.c") (.int 7) = .ok (.map m')
      ∧ (alistGet m' (.str ".a.b\\.c") = none →
          getItem (.map m') (.str ".a.b\\.c") = .ok (.int 7)) :=
  C8_escape_roundtrip.2 [] ".a.b\\.c" [Seg.str "a", Seg.str "b.c"] [Seg.str "a"]
    (Seg.str "b.c") (.int 7) rfl rfl rfl rfl rfl

/-! # Claim C1: the string-function toolkit

Lemmas about the embedded Python string primitives, leading to the
parser/printer round trip between a rendered delimited key expression and
its segment list. -/

theorem strEta (s : String) : (⟨s.data⟩ : String) = s := by
  cases s
  rfl

theorem mem_pyReplace1 {c x : Char} {new s : List Char}
    (h : c ∈ pyReplace1 x new s) : c ∈ s ∨ c ∈ new := by
  induction s with
  | nil => simp [pyReplace1] at h
  | cons a t ih =>
    by_cases ha : a = x
    · rw [pyReplace1, if_pos ha] at h
      rcases List.mem_append.mp h with hn | hr
      · exact Or.inr hn
      · rcases ih hr with hs | hn
        · exact Or.inl (List.mem_cons_of_mem _ hs)
        · exact Or.inr hn
    · rw [pyReplace1, if_neg ha] at h
      rcases List.mem_cons.mp h with hc | hr
      · exact Or.inl (hc ▸ List.mem_cons_self _ _)
      · rcases ih hr with hs | hn
        · exact Or.inl (List.mem_cons_of_mem _ hs)
        · exact Or.inr hn

theorem pyReplace1_of_not_mem {x : Char} {new s : List Char}
    (h : x ∉ s) : pyReplace1 x new s = s := by
  induction s with
  | nil => rfl
  | cons a t ih =>
    have hax : ¬(a = x) := fun he => h (he ▸ List.mem_cons_self _ _)
    rw [pyReplace1, if_neg hax, ih (fun ht => h (List.mem_cons_of_mem _ ht))]

theorem not_mem_pyReplace1_self {x : Char} {new s : List Char}
    (h : x ∉ new) : x ∉ pyReplace1 x new s := by
  induction s with
  | nil => simp [pyReplace1]
  | cons a t ih =>
    by_cases ha : a = x
    · rw [pyReplace1, if_pos ha]
      intro hmem
      rcases List.mem_append.mp hmem with hn | hr
      · exact h hn
      · exact ih hr
    · rw [pyReplace1, if_neg ha]
      intro hmem
      rcases List.mem_cons.mp hmem with hc | hr
      · exact ha hc.symm
      · exact ih hr

theorem pySplitCh_of_not_mem {d : Char} {s : List Char} (h : d ∉ s) :
    pySplitCh d s = [s] := by
  induction s with
  | nil => rfl
  | cons a t ih =>
    have had : ¬(a = d) := fun he => h (he ▸ List.mem_cons_self _ _)
    rw [pySplitCh, if_neg had, ih (fun ht => h (List.mem_cons_of_mem _ ht))]

theorem pySplitCh_append {d : Char} {s : List Char} (t : List Char) (h : d ∉ s) :
    pySplitCh d (s ++ d :: t) = s :: pySplitCh d t := by
  induction s with
  | nil => simp [pySplitCh]
  | cons a s' ih =>
    have had : ¬(a = d) := fun he => h (he ▸ List.mem_cons_self _ _)
    rw [List.cons_append, pySplitCh, if_neg had,
      ih (fun ht => h (List.mem_cons_of_mem _ ht))]

theorem pySplitCh_joinSeps {d : Char} :
    ∀ (segs : List (List Char)), segs ≠ [] → (∀ s ∈ segs, d ∉ s) →
      pySplitCh d (joinSeps d segs) = segs := by
  intro segs
  induction segs with
  | nil => intro h _; exact absurd rfl h
  | cons s rest ih =>
    intro _ hall
    cases rest with
    | nil => exact pySplitCh_of_not_mem (hall s (List.mem_cons_self _ _))
    | cons s' rest' =>
      rw [show joinSeps d (s :: s' :: rest') = s ++ d :: joinSeps d (s' :: rest') from rfl]
      rw [pySplitCh_append _ (hall s (List.mem_cons_self _ _))]
      rw [ih (by simp) (fun x hx => hall x (List.mem_cons_of_mem _ hx))]

theorem pyReplace1_invert {d : Char} {s : List Char}
    (hcr : '\r' ∉ s) :
    pyReplace1 '\r' [d] (pyReplace1 d ['\r'] s) = s := by
  induction s with
  | nil => rfl
  | cons a t ih =>
    have ht : '\r' ∉ t := fun hh => hcr (List.mem_cons_of_mem _ hh)
    by_cases had : a = d
    · rw [pyReplace1, if_pos had]
      show pyReplace1 '\r' [d] ('\r' :: pyReplace1 d ['\r'] t) = a :: t
      rw [pyReplace1, if_pos rfl, ih ht, had]
      rfl
    · have hacr : ¬(a = '\r') := fun he => hcr (he ▸ List.mem_cons_self _ _)
      rw [pyReplace1, if_neg had, pyReplace1, if_neg hacr, ih ht]

theorem pyReplace2_cons_ne {x y c : Char} {new rest : List Char} (hc : c ≠ x) :
    pyReplace2 x y new (c :: rest) = c :: pyReplace2 x y new rest := by
  cases rest with
  | nil => rfl
  | cons c' r => rw [pyReplace2, if_neg (fun hh => hc hh.1)]

theorem pyReplace2_esc {x y : Char} {new rest : List Char} :
    pyReplace2 x y new (x :: y :: rest) = new ++ pyReplace2 x y new rest := by
  rw [pyReplace2, if_pos ⟨rfl, rfl⟩]

theorem pyReplace2_enc {d : Char} :
    ∀ (s : List Char), '\\' ∉ s →
      pyReplace2 '\\' d ['\r'] (pyReplace1 d ['\\', d] s) = pyReplace1 d ['\r'] s := by
  intro s
  induction s with
  | nil => intro _; rfl
  | cons c t ih =>
    intro hbs
    have hcb : c ≠ '\\' := fun he => hbs (he ▸ List.mem_cons_self _ _)
    have htb : '\\' ∉ t := fun hh => hbs (List.mem_cons_of_mem _ hh)
    by_cases hcd : c = d
    · rw [pyReplace1, if_pos hcd, pyReplace1, if_pos hcd]
      show pyReplace2 '\\' d ['\r'] ('\\' :: d :: pyReplace1 d ['\\', d] t)
        = '\r' :: pyReplace1 d ['\r'] t
      rw [pyReplace2_esc, ih htb]
      rfl
    · rw [pyReplace1, if_neg hcd, pyReplace1, if_neg hcd, pyReplace2_cons_ne hcb, ih htb]

theorem pyReplace2_enc_append {d : Char} (hd : d ≠ '\\') :
    ∀ (s : List Char) (tail : List Char), '\\' ∉ s →
      pyReplace2 '\\' d ['\r'] (pyReplace1 d ['\\', d] s ++ d :: tail)
        = pyReplace1 d ['\r'] s ++ d :: pyReplace2 '\\' d ['\r'] tail := by
  intro s
  induction s with
  | nil =>
    intro tail _
    show pyReplace2 '\\' d ['\r'] (d :: tail) = d :: pyReplace2 '\\' d ['\r'] tail
    exact pyReplace2_cons_ne (fun he => hd he)
  | cons c t ih =>
    intro tail hbs
    have hcb : c ≠ '\\' := fun he => hbs (he ▸ List.mem_cons_self _ _)
    have htb : '\\' ∉ t := fun hh => hbs (List.mem_cons_of_mem _ hh)
    by_cases hcd : c = d
    · rw [pyReplace1, if_pos hcd, pyReplace1, if_pos hcd]
      show pyReplace2 '\\' d ['\r'] ('\\' :: d :: (pyReplace1 d ['\\', d] t ++ d :: tail))
        = ('\r' :: pyReplace1 d ['\r'] t) ++ d :: pyReplace2 '\\' d ['\r'] tail
      rw [pyReplace2_esc, ih tail htb]
      rfl
    · rw [pyReplace1, if_neg hcd, pyReplace1, if_neg hcd]
      show pyReplace2 '\\' d ['\r'] (c :: (pyReplace1 d ['\\', d] t ++ d :: tail))
        = (c :: pyReplace1 d ['\r'] t) ++ d :: pyReplace2 '\\' d ['\r'] tail
      rw [pyReplace2_cons_ne hcb, ih tail htb]
      rfl

theorem pyReplace2_joinSeps {d : Char} (hd : d ≠ '\\') :
    ∀ (segs : List (List Char)), (∀ s ∈ segs, '\\' ∉ s) →
      pyReplace2 '\\' d ['\r'] (joinSeps d (segs.map (pyReplace1 d ['\\', d])))
        = joinSeps d (segs.map (pyReplace1 d ['\r'])) := by
  intro segs
  induction segs with
  | nil => intro _; rfl
  | cons s rest ih =>
    intro hall
    have hs : '\\' ∉ s := hall s (List.mem_cons_self _ _)
    have hrest : ∀ x ∈ rest, '\\' ∉ x := fun x hx => hall x (List.mem_cons_of_mem _ hx)
    cases rest with
    | nil => exact pyReplace2_enc s hs
    | cons s' rest' =>
      show pyReplace2 '\\' d ['\r']
          (pyReplace1 d ['\\', d] s ++ d :: joinSeps d ((s' :: rest').map (pyReplace1 d ['\\', d])))
        = pyReplace1 d ['\r'] s ++ d :: joinSeps d ((s' :: rest').map (pyReplace1 d ['\r']))
      rw [pyReplace2_enc_append hd s _ hs, ih hrest]

theorem mem_joinSeps {d c : Char} :
    ∀ {segs : List (List Char)}, c ∈ joinSeps d segs → c = d ∨ ∃ s ∈ segs, c ∈ s := by
  intro segs
  induction segs with
  | nil => intro h; simp [joinSeps] at h
  | cons s rest ih =>
    intro h
    cases rest with
    | nil => exact Or.inr ⟨s, List.mem_cons_self _ _, h⟩
    | cons s' rest' =>
      rcases List.mem_append.mp h with hs | hdr
      · exact Or.inr ⟨s, List.mem_cons_self _ _, hs⟩
      · rcases List.mem_cons.mp hdr with hc | hr
        · exact Or.inl hc
        · rcases ih hr with hdd | ⟨x, hx, hcx⟩
          · exact Or.inl hdd
          · exact Or.inr ⟨x, List.mem_cons_of_mem _ hx, hcx⟩

theorem pySub_head_mem {c : Char} {n l : List Char} (h : pySub (c :: n) l = true) :
    c ∈ l := by
  induction l with
  | nil => simp [pySub] at h
  | cons a t ih =>
    rw [pySub, Bool.or_eq_true] at h
    rcases h with hp | hr
    · simp only [List.isPrefixOf, Bool.and_eq_true, beq_iff_eq] at hp
      exact hp.1 ▸ List.mem_cons_self _ _
    · exact List.mem_cons_of_mem _ (ih hr)

theorem pySub_not_of_not_mem {c : Char} {n l : List Char} (h : c ∉ l) :
    pySub (c :: n) l = false := by
  cases hp : pySub (c :: n) l with
  | true => exact absurd (pySub_head_mem hp) h
  | false => rfl

theorem pySub_of_factor {n : List Char} :
    ∀ (a : List Char) {b l : List Char}, l = a ++ n ++ b → pySub n l = true := by
  intro a
  induction a with
  | nil =>
    intro b l h
    subst h
    cases n with
    | nil => cases b <;> simp [pySub, List.isPrefixOf]
    | cons c n' =>
      show pySub (c :: n') (c :: (n' ++ b)) = true
      rw [pySub, Bool.or_eq_true]
      left
      rw [ List.isPrefixOf_iff_prefix]
      exact ⟨b, by simp⟩
  | cons x a' ih =>
    intro b l h
    subst h
    show pySub n (x :: (a' ++ n ++ b)) = true
    rw [pySub, ih rfl, Bool.or_true]

theorem enc_has_esc {d : Char} :
    ∀ {s : List Char}, d ∈ s →
      ∃ a b, pyReplace1 d ['\\', d] s = a ++ '\\' :: d :: b := by
  intro s
  induction s with
  | nil => intro h; cases h
  | cons c t ih =>
    intro h
    by_cases hcd : c = d
    · exact ⟨[], pyReplace1 d ['\\', d] t, by rw [pyReplace1, if_pos hcd]; rfl⟩
    · have hdt : d ∈ t := by
        rcases List.mem_cons.mp h with hc | ht
        · exact absurd hc.symm hcd
        · exact ht
      obtain ⟨a, b, hab⟩ := ih hdt
      exact ⟨c :: a, b, by rw [pyReplace1, if_neg hcd, hab]; rfl⟩

theorem joinSeps_factor {d : Char} :
    ∀ {segs : List (List Char)} {s : List Char}, s ∈ segs →
      ∃ a b, joinSeps d segs = a ++ s ++ b := by
  intro segs
  induction segs with
  | nil => intro s h; cases h
  | cons s₀ rest ih =>
    intro s h
    cases rest with
    | nil =>
      rcases List.mem_cons.mp h with hc | hr
      · exact ⟨[], [], by simp [joinSeps, hc]⟩
      · cases hr
    | cons s₁ rest' =>
      rcases List.mem_cons.mp h with hc | hr
      · subst hc
        exact ⟨[], d :: joinSeps d (s₁ :: rest'), rfl⟩
      · obtain ⟨a, b, hab⟩ := ih hr
        refine ⟨s₀ ++ d :: a, b, ?_⟩
        show s₀ ++ d :: joinSeps d (s₁ :: rest') = (s₀ ++ d :: a) ++ s ++ b
        rw [hab]
        simp

/-- No two adjacent backslashes anywhere in the list. -/
def noDD : List Char → Bool
  | [] => true
  | [_] => true
  | a :: b :: rest => if a = '\\' ∧ b = '\\' then false else noDD (b :: rest)

theorem noDD_cons {a : Char} {l : List Char} (ha : a ≠ '\\') (h : noDD l = true) :
    noDD (a :: l) = true := by
  cases l with
  | nil => rfl
  | cons b r => rw [noDD, if_neg (fun hh => ha hh.1)]; exact h

theorem noDD_tail {a : Char} {l : List Char} (h : noDD (a :: l) = true) :
    noDD l = true := by
  cases l with
  | nil => rfl
  | cons b r =>
    rw [noDD] at h
    split at h
    · cases h
    · exact h

theorem noDD_no_doubled {d : Char} :
    ∀ {l : List Char}, noDD l = true → pySub ['\\', '\\', d] l = false := by
  intro l
  induction l with
  | nil => intro _; rfl
  | cons a t ih =>
    intro h
    rw [pySub, ih (noDD_tail h), Bool.or_false]
    cases t with
    | nil => simp [List.isPrefixOf]
    | cons b r =>
      by_cases hab : a = '\\' ∧ b = '\\'
      · rw [noDD, if_pos hab] at h
        cases h
      · simp only [List.isPrefixOf]
        rcases not_and_or.mp hab with ha | hb
        · have h1 : ('\\' == a) = false := beq_eq_false_iff_ne.mpr (fun he => ha he.symm)
          rw [h1, Bool.false_and]
        · have h1 : ('\\' == b) = false := beq_eq_false_iff_ne.mpr (fun he => hb he.symm)
          rw [h1, Bool.false_and, Bool.and_false]

theorem noDD_enc {d : Char} (hd : d ≠ '\\') :
    ∀ {s : List Char}, '\\' ∉ s → noDD (pyReplace1 d ['\\', d] s) = true := by
  intro s
  induction s with
  | nil => intro _; rfl
  | cons c t ih =>
    intro hbs
    have hcb : c ≠ '\\' := fun he => hbs (he ▸ List.mem_cons_self _ _)
    have htb : '\\' ∉ t := fun hh => hbs (List.mem_cons_of_mem _ hh)
    by_cases hcd : c = d
    · rw [pyReplace1, if_pos hcd]
      show noDD ('\\' :: d :: pyReplace1 d ['\\', d] t) = true
      rw [noDD, if_neg (fun hh => hd hh.2)]
      exact noDD_cons hd (ih htb)
    · rw [pyReplace1, if_neg hcd]
      exact noDD_cons hcb (ih htb)

theorem noDD_enc_append {d : Char} (hd : d ≠ '\\') :
    ∀ (s : List Char) {tail : List Char}, '\\' ∉ s → noDD tail = true →
      noDD (pyReplace1 d ['\\', d] s ++ d :: tail) = true := by
  intro s
  induction s with
  | nil =>
    intro tail _ htail
    exact noDD_cons hd htail
  | cons c t ih =>
    intro tail hbs htail
    have hcb : c ≠ '\\' := fun he => hbs (he ▸ List.mem_cons_self _ _)
    have htb : '\\' ∉ t := fun hh => hbs (List.mem_cons_of_mem _ hh)
    by_cases hcd : c = d
    · rw [pyReplace1, if_pos hcd]
      show noDD ('\\' :: d :: (pyReplace1 d ['\\', d] t ++ d :: tail)) = true
      rw [noDD, if_neg (fun hh => hd hh.2)]
      exact noDD_cons hd (ih htb htail)
    · rw [pyReplace1, if_neg hcd]
      show noDD (c :: (pyReplace1 d ['\\', d] t ++ d :: tail)) = true
      exact noDD_cons hcb (ih htb htail)

theorem noDD_joinSeps_enc {d : Char} (hd : d ≠ '\\') :
    ∀ (segs : List (List Char)), (∀ s ∈ segs, '\\' ∉ s) →
      noDD (joinSeps d (segs.map (pyReplace1 d ['\\', d]))) = true := by
  intro segs
  induction segs with
  | nil => intro _; rfl
  | cons s rest ih =>
    intro hall
    have hs : '\\' ∉ s := hall s (List.mem_cons_self _ _)
    have hrest : ∀ x ∈ rest, '\\' ∉ x := fun x hx => hall x (List.mem_cons_of_mem _ hx)
    cases rest with
    | nil => exact noDD_enc hd hs
    | cons s' rest' =>
      show noDD (pyReplace1 d ['\\', d] s
          ++ d :: joinSeps d ((s' :: rest').map (pyReplace1 d ['\\', d]))) = true
      exact noDD_enc_append hd s hs (ih hrest)

/-! # Claim C1: notation equivalence -/

/-- The escaped-delimiter rendering of a segment list: exactly the rendering
names() produces, the delimiter followed by the delimiter-joined segments
with embedded delimiters backslash-escaped. -/
def escRender (d : Char) (segs : List String) : String :=
  renderName d (segs.map Seg.str)

/-- The plain delimited rendering: the delimiter followed by the
delimiter-joined raw segments. -/
def plainRender (d : Char) (segs : List String) : String :=
  ⟨d :: joinSeps d (segs.map String.data)⟩

theorem escRender_data (d : Char) (segs : List String) :
    (escRender d segs).data
      = d :: joinSeps d ((segs.map String.data).map (pyReplace1 d ['\\', d])) := by
  show d :: joinSeps d
      ((segs.map Seg.str).map (fun s => pyReplace1 d ['\\', d] (segStr s).data))
    = d :: joinSeps d ((segs.map String.data).map (pyReplace1 d ['\\', d]))
  congr 1
  rw [List.map_map, List.map_map]
  congr 1

/-- The parser/printer round trip: splitting the escaped rendering of a
nonempty segment list whose segments avoid backslash and CR, under a
non-alphanumeric delimiter other than backslash and CR, recovers exactly the
original segments. -/
theorem splitIntoKeys_escRender (d : Char) (segs : List String)
    (hd1 : d.isAlphanum = false) (hd2 : d ≠ '\\') (hd3 : d ≠ '\r')
    (hne : segs ≠ [])
    (hchars : ∀ s ∈ segs, '\\' ∉ s.data ∧ '\r' ∉ s.data) :
    splitIntoKeys (escRender d segs) = .ok (segs.map Seg.str) := by
  have hbs : ∀ x ∈ segs.map String.data, '\\' ∉ x := by
    intro x hx
    obtain ⟨s, hs, hsx⟩ := List.mem_map.mp hx
    exact hsx ▸ (hchars s hs).1
  have hcr : ∀ x ∈ segs.map String.data, '\r' ∉ x := by
    intro x hx
    obtain ⟨s, hs, hsx⟩ := List.mem_map.mp hx
    exact hsx ▸ (hchars s hs).2
  have hmapne : segs.map String.data ≠ [] := by
    intro hcon
    exact hne (List.map_eq_nil_iff.mp hcon)
  simp only [splitIntoKeys, escRender_data, hd1, Bool.false_eq_true, if_false]
  by_cases hAny : ∀ s ∈ segs, d ∉ s.data
  · -- no segment contains the delimiter: escaping is the identity and the
    -- escape sequence is absent
    have hbody : (segs.map String.data).map (pyReplace1 d ['\\', d])
        = segs.map String.data := by
      rw [List.map_map]
      apply List.map_congr_left
      intro s hs
      exact pyReplace1_of_not_mem (hAny s hs)
    rw [hbody]
    have hnob : '\\' ∉ joinSeps d (segs.map String.data) := by
      intro hmem
      rcases mem_joinSeps hmem with hcd | ⟨x, hx, hcx⟩
      · exact hd2 hcd.symm
      · exact hbs x hx hcx
    simp only [pySub_not_of_not_mem hnob, Bool.false_eq_true, if_false]
    rw [pySplitCh_joinSeps (segs.map String.data) hmapne
      (fun x hx => by
        obtain ⟨s, hs, hsx⟩ := List.mem_map.mp hx
        exact hsx ▸ hAny s hs)]
    simp only [List.map_map]
    refine congrArg Except.ok (List.map_congr_left ?_)
    intro s _
    simp [Function.comp, strEta]
  · -- some segment contains the delimiter: the escape sequence is present,
    -- no doubled escape or CR can occur, and the sentinel substitution
    -- round-trips
    have hsome : ∃ s ∈ segs, d ∈ s.data := by
      push_neg at hAny
      exact hAny
    obtain ⟨s₀, hs₀, hd₀⟩ := hsome
    have hfac : pySub ['\\', d]
        (joinSeps d ((segs.map String.data).map (pyReplace1 d ['\\', d]))) = true := by
      have h1 : pyReplace1 d ['\\', d] s₀.data
          ∈ (segs.map String.data).map (pyReplace1 d ['\\', d]) :=
        List.mem_map_of_mem _ (List.mem_map_of_mem _ hs₀)
      obtain ⟨A, B, hAB⟩ := joinSeps_factor h1
      obtain ⟨a, b, hab⟩ := enc_has_esc hd₀
      have heq : joinSeps d ((segs.map String.data).map (pyReplace1 d ['\\', d]))
          = (A ++ a) ++ ['\\', d] ++ (b ++ B) := by
        rw [hAB, hab]
        simp
      exact pySub_of_factor (A ++ a) heq
    have hnodd : pySub ['\\', '\\', d]
        (joinSeps d ((segs.map String.data).map (pyReplace1 d ['\\', d]))) = false :=
      noDD_no_doubled (noDD_joinSeps_enc hd2 (segs.map String.data) hbs)
    have hnocr : '\r' ∉ joinSeps d ((segs.map String.data).map (pyReplace1 d ['\\', d])) := by
      intro hmem
      rcases mem_joinSeps hmem with hcd | ⟨x, hx, hcx⟩
      · exact hd3 hcd.symm
      · obtain ⟨y, hy, hyx⟩ := List.mem_map.mp hx
        rcases mem_pyReplace1 (hyx ▸ hcx) with hyy | hnn
        · exact hcr y hy hyy
        · simp only [List.mem_cons, List.mem_singleton, List.not_mem_nil, or_false] at hnn
          rcases hnn with h1 | h1
          · exact absurd h1 (by decide)
          · exact hd3 h1.symm
    simp only [hfac, if_true, hnodd, Bool.false_eq_true, if_false,
      pySub_not_of_not_mem hnocr, decide_eq_false hd3, Bool.or_self]
    rw [pyReplace2_joinSeps hd2 (segs.map String.data) hbs]
    rw [pySplitCh_joinSeps ((segs.map String.data).map (pyReplace1 d ['\r']))
      (by
        intro hcon
        exact hmapne (List.map_eq_nil_iff.mp hcon))
      (fun x hx => by
        obtain ⟨y, _, hyx⟩ := List.mem_map.mp hx
        exact hyx ▸ not_mem_pyReplace1_self (by
          intro hmem
          rcases List.mem_singleton.mp hmem with h
          exact hd3 h))]
    simp only [List.map_map]
    refine congrArg Except.ok ?_
    have : ∀ s ∈ segs,
        ((fun h => Seg.str ⟨pyReplace1 '\r' [d] h⟩) ∘ pyReplace1 d ['\r'] ∘ String.data) s
          = Seg.str s := by
      intro s hs
      simp only [Function.comp]
      rw [pyReplace1_invert (hchars s hs).2, strEta]
    exact List.map_congr_left this

/-- C1 counterexample: the claim fails as stated because of the exact-match
shortcut in the key hierarchy.  In a document that holds both the literal
top-level key dot-a-dot-b and the nested mapping a containing b, the
delimited string addresses the literal key (value 0) while the explicit
segment sequence addresses the nested value (1). -/
theorem C1_exact_match_counterexample :
    getItem (.map [(.str ".a.b", .int 0), (.str "a", .map [(.str "b", .int 1)])])
        (.str ".a.b") = .ok (.int 0)
    ∧ getItem (.map [(.str ".a.b", .int 0), (.str "a", .map [(.str "b", .int 1)])])
        (.segs [.str "a", .str "b"]) = .ok (.int 1)
    ∧ Node.int 0 ≠ Node.int 1 := ⟨rfl, rfl, by simp⟩

/-- C1 amended: notation equivalence under the shortcut-free, escapable
side conditions.  For a non-alphanumeric delimiter other than backslash and
CR and a nonempty segment list free of backslash and CR: the escaped
rendering splits back into exactly the original segments; when that rendering
is not itself a top-level key of the document (the exact-match shortcut),
accessing it as a delimited string equals accessing the explicit segment
sequence; and when no segment contains the delimiter the escaped rendering
coincides with the plain delimited string. -/
theorem C1_keypath_equivalence :
    ∀ (m : List (Seg × Node)) (d : Char) (segs : List String),
      d.isAlphanum = false → d ≠ '\\' → d ≠ '\r' → segs ≠ [] →
      (∀ s ∈ segs, '\\' ∉ s.data ∧ '\r' ∉ s.data) →
      splitIntoKeys (escRender d segs) = .ok (segs.map Seg.str)
      ∧ (alistGet m (.str (escRender d segs)) = none →
          getItem (.map m) (.str (escRender d segs))
            = getItem (.map m) (.segs (segs.map Seg.str)))
      ∧ ((∀ s ∈ segs, d ∉ s.data) → escRender d segs = plainRender d segs) := by
  intro m d segs hd1 hd2 hd3 hne hchars
  have hsplit := splitIntoKeys_escRender d segs hd1 hd2 hd3 hne hchars
  refine ⟨hsplit, ?_, ?_⟩
  · intro htop
    simp only [getItem, getKeyHierarchy, htop, Option.isSome_none, Bool.false_eq_true,
      if_false, hsplit]
  · intro hAny
    have hbody : (segs.map String.data).map (pyReplace1 d ['\\', d])
        = segs.map String.data := by
      rw [List.map_map]
      apply List.map_congr_left
      intro s hs
      exact pyReplace1_of_not_mem (hAny s hs)
    have h1 : (escRender d segs).data = (plainRender d segs).data := by
      rw [escRender_data, hbody]
      rfl
    cases hesc : escRender d segs
    cases hpl : plainRender d segs
    rw [hesc, hpl] at h1
    exact congrArg String.mk h1

/-- C1 witness: the amended equivalence applied at the delimiter dot and the
segments a and b-dot-c over the empty document. -/
theorem C1_keypath_equivalence_witness :
    splitIntoKeys (escRender '.' ["a", "b.c"]) = .ok (["a", "b.c"].map Seg.str)
    ∧ (alistGet [] (.str (escRender '.' ["a", "b.c"])) = none →
        getItem (.map []) (.str (escRender '.' ["a", "b.c"]))
          = getItem (.map []) (.segs (["a", "b.c"].map Seg.str)))
    ∧ ((∀ s ∈ ["a", "b.c"], '.' ∉ s.data)
        → escRender '.' ["a", "b.c"] = plainRender '.' ["a", "b.c"]) :=
  C1_keypath_equivalence [] '.' ["a", "b.c"] (by decide) (by decide) (by decide)
    (by decide) (by decide)

end DafConfig
